import Mathlib

/-!
Shallow embedding of the persistent storage layer (`db.rs`) of the ledger
and of the IBC channel validity predicate (`channel.rs`), together with
proofs about them.

Keys are modelled as lists of characters (the source keys are valid UTF-8
strings) and values as lists of bytes.  The embedded storage engine is an
association list with one binding per key, scanned through the custom key
comparator exactly as the source configures RocksDB to do.
-/

/-- Three-way comparison on naturals, as Rust `u64::cmp`. -/
def natCmp (m n : Nat) : Ordering :=
  if m < n then .lt else if m = n then .eq else .gt

/-- Comparison of characters by code point; on valid UTF-8, Rust string
comparison (byte order) coincides with code-point order. -/
def charCmp (a b : Char) : Ordering := natCmp a.toNat b.toNat

/-- Lexicographic comparison of lists, as Rust slice `cmp`. -/
def listCmp (cmp : α → α → Ordering) : List α → List α → Ordering
  | [], [] => .eq
  | [], _ :: _ => .lt
  | _ :: _, [] => .gt
  | a :: as, b :: bs =>
    match cmp a b with
    | .eq => listCmp cmp as bs
    | o => o

/-- Rust `str` comparison on character lists. -/
def strCmp : List Char → List Char → Ordering := listCmp charCmp

/-- Rust `str::split('/')`: splits at every slash, keeping empty segments. -/
def splitCh : List Char → List (List Char)
  | [] => [[]]
  | c :: rest =>
    if c = '/' then [] :: splitCh rest
    else
      match splitCh rest with
      | seg :: segs => (c :: seg) :: segs
      | [] => [[c]]

/-- Rust `Vec<&str>::join("/")`. -/
def joinCh : List (List Char) → List Char
  | [] => []
  | [s] => s
  | s :: rest => s ++ '/' :: joinCh rest

/-- ASCII decimal digit test (code points 48-57, i.e. `'0'` to `'9'`). -/
def isDigitCh (c : Char) : Bool := decide (48 ≤ c.toNat) && decide (c.toNat ≤ 57)

/-- Numeric value of an ASCII digit character. -/
def digitVal (c : Char) : Nat := c.toNat - 48

/-- Value of a string of decimal digits. -/
def digitsVal (s : List Char) : Nat :=
  s.foldl (fun acc c => acc * 10 + digitVal c) 0

/-- Rust `str::parse::<u64>()`: an optional leading `+`, then one or more
ASCII digits, denoting a value below `2 ^ 64` (larger values overflow and
fail to parse). -/
def parseU64 (s : List Char) : Option Nat :=
  let ds := match s with
    | '+' :: rest => rest
    | _ => s
  if ds ≠ [] && ds.all isDigitCh && decide (digitsVal ds < 2 ^ 64) then
    some (digitsVal ds)
  else none

/-- The custom RocksDB comparator `key_comparator` from `db.rs`: split both
keys on `/` and try to parse the first segment of each as `u64`.  If either
parse fails, compare the whole keys as strings; otherwise compare the
heights numerically and, on equal heights, compare the remaining segment
sequences lexicographically. -/
def key_comparator (a b : List Char) : Ordering :=
  let aV := splitCh a
  let bV := splitCh b
  match parseU64 (aV.headD []), parseU64 (bV.headD []) with
  | some ah, some bh =>
    if ah = bh then listCmp strCmp aV.tail bV.tail else natCmp ah bh
  | _, _ => strCmp a b

/-- The decimal digit character for a digit value. -/
def digitChar : Nat → Char
  | 0 => '0' | 1 => '1' | 2 => '2' | 3 => '3' | 4 => '4'
  | 5 => '5' | 6 => '6' | 7 => '7' | 8 => '8' | _ => '9'

/-- Fuelled digit printer; the fuel only serves structural recursion and
any fuel above the argument yields the same digits. -/
def natSegF : Nat → Nat → List Char
  | 0, _ => []
  | fuel + 1, n =>
    if n < 10 then [digitChar n]
    else natSegF fuel (n / 10) ++ [digitChar (n % 10)]

/-- Modelled from the spec: `BlockHeight::to_key_seg` and the address
key-segment codec (their source module is not part of this tree) produce
the canonical decimal encoding of an unsigned integer, which the key
comparator parses back. -/
def natSeg (n : Nat) : List Char := natSegF (n + 1) n

/-- Modelled from the spec: the address parse-back function is a left
inverse of the encoding; decimal digit strings decode to their value. -/
def addrFromSeg (s : List Char) : Option Nat :=
  if s ≠ [] && s.all isDigitCh then some (digitsVal s) else none

/-- Does the first `/`-segment of a key parse as `u64`? -/
def firstSegParses (k : List Char) : Bool := (parseU64 ((splitCh k).headD [])).isSome

/-- Is a byte a UTF-8 continuation byte? -/
def utf8Cont (b : Nat) : Bool := decide (0x80 ≤ b) && decide (b < 0xC0)

/-- Strict UTF-8 decoding of a byte list, as Rust `String::from_utf8`:
rejects continuation bytes in leading position, overlong encodings,
surrogate code points, values above `U+10FFFF` and truncated sequences. -/
def utf8Decode : List Nat → Option (List Char)
  | [] => some []
  | b :: rest =>
    if b < 0x80 then (utf8Decode rest).map fun cs => Char.ofNat b :: cs
    else if b < 0xC2 then none
    else if b < 0xE0 then
      match rest with
      | b1 :: rest1 =>
        if utf8Cont b1 then
          (utf8Decode rest1).map fun cs =>
            Char.ofNat ((b - 0xC0) * 0x40 + (b1 - 0x80)) :: cs
        else none
      | [] => none
    else if b < 0xF0 then
      match rest with
      | b1 :: b2 :: rest2 =>
        if (if b = 0xE0 then decide (0xA0 ≤ b1) && decide (b1 < 0xC0)
            else if b = 0xED then decide (0x80 ≤ b1) && decide (b1 < 0xA0)
            else utf8Cont b1) && utf8Cont b2 then
          (utf8Decode rest2).map fun cs =>
            Char.ofNat ((b - 0xE0) * 0x1000 + (b1 - 0x80) * 0x40 + (b2 - 0x80)) :: cs
        else none
      | _ => none
    else if b < 0xF5 then
      match rest with
      | b1 :: b2 :: b3 :: rest3 =>
        if (if b = 0xF0 then decide (0x90 ≤ b1) && decide (b1 < 0xC0)
            else if b = 0xF4 then decide (0x80 ≤ b1) && decide (b1 < 0x90)
            else utf8Cont b1) && utf8Cont b2 && utf8Cont b3 then
          (utf8Decode rest3).map fun cs =>
            Char.ofNat
              ((b - 0xF0) * 0x40000 + (b1 - 0x80) * 0x1000 + (b2 - 0x80) * 0x40
                + (b3 - 0x80)) :: cs
        else none
      | _ => none
    else none

/-- The comparator as RocksDB invokes it, on raw byte slices: `db.rs`
converts both operands with `String::from_utf8(..).unwrap()` before
comparing, so invalid UTF-8 panics before any ordering is produced;
`none` models that panic. -/
def key_comparator_bytes (a b : List Nat) : Option Ordering :=
  match utf8Decode a, utf8Decode b with
  | some x, some y => some (key_comparator x y)
  | _, _ => none

/-- A storage key (a UTF-8 string in the source). -/
abbrev StoreKey := List Char

/-- A stored value (`Vec<u8>` in the source). -/
abbrev Bytes := List Nat

/-- Point lookup in an association list. -/
def aGet [DecidableEq κ] (m : List (κ × ν)) (k : κ) : Option ν :=
  (m.find? fun p => decide (p.1 = k)).map (·.2)

/-- Overwriting insert in an association list. -/
def aPut [DecidableEq κ] (k : κ) (v : ν) (m : List (κ × ν)) : List (κ × ν) :=
  (k, v) :: m.filter fun p => !decide (p.1 = k)

/-- The fixed keys of `db.rs`. -/
def chainIdKey : StoreKey := "chain_id".data

/-- The global height pointer key. -/
def heightPtrKey : StoreKey := "height".data

/-- The key `h/tree/root`. -/
def treeRootKey (h : Nat) : StoreKey := natSeg h ++ '/' :: "tree/root".data

/-- The key `h/tree/store`. -/
def treeStoreKey (h : Nat) : StoreKey := natSeg h ++ '/' :: "tree/store".data

/-- The key `h/hash`. -/
def blockHashKey (h : Nat) : StoreKey := natSeg h ++ '/' :: "hash".data

/-- The key `h/subspace/<address>/<column>`. -/
def subspaceKey (h a : Nat) (c : List Char) : StoreKey :=
  natSeg h ++ '/' :: ("subspace".data ++ '/' :: (natSeg a ++ '/' :: c))

/-- Little-endian byte serialization of a bounded natural. -/
def leBytes : Nat → Nat → Bytes
  | 0, _ => []
  | k + 1, n => n % 256 :: leBytes k (n / 256)

/-- Little-endian byte deserialization. -/
def leVal : Bytes → Nat
  | [] => 0
  | b :: bs => b + 256 * leVal bs

/-- Modelled from the spec: `BlockHeight` is a `u64` whose `encode`
serializes the integer and whose `decode` reads it back. -/
def heightEncode (h : Nat) : Bytes := leBytes 8 h

/-- Modelled from the spec: inverse of `heightEncode` on `u64` values. -/
def heightDecode (bs : Bytes) : Nat := leVal bs

/-- Modelled from the spec: `String::encode` stores the chain id string,
`String::decode` reads it back. -/
def strEncode (s : List Char) : Bytes := s.map Char.toNat

/-- Modelled from the spec: inverse of `strEncode`. -/
def strDecode (bs : Bytes) : List Char := bs.map Char.ofNat

/-- The in-memory Merkle tree of the source exposes a root, an encodable
store, and a constructor from the pair; both encodings are opaque bytes
here. -/
structure MerkleTree where
  root : Bytes
  store : Bytes
deriving DecidableEq, Inhabited

/-- The error enum of `db.rs`. -/
inductive DbError where
  | Temporary (error : String)
  | UnknownKey (key : StoreKey)
  | RocksDBError (error : String)
deriving DecidableEq

/-- The embedded engine state. -/
abbrev DB := List (StoreKey × Bytes)

/-- Flattened subspace input of `write_block`: one binding per
(address, column) pair, as the nested `HashMap`s of the source hold. -/
abbrev SS := List ((Nat × List Char) × Bytes)

/-- The atomic batch assembled by `DB::write_block`: Merkle root, tree
store, block hash, then every subspace entry. -/
def blockBatch (tree : MerkleTree) (hash : Bytes) (height : Nat) (subspaces : SS)
    (db : DB) : DB :=
  let db1 := aPut (treeRootKey height) tree.root db
  let db2 := aPut (treeStoreKey height) tree.store db1
  let db3 := aPut (blockHashKey height) hash db2
  subspaces.foldl (fun d e => aPut (subspaceKey height e.1.1 e.1.2) e.2 d) db3

/-- The operation `DB::write_block`.  The two engine writes (the atomic batch commit and
the `height` pointer put) may each fail; a failure is injected through
`batchErr`/`ptrErr` and propagates exactly as `?` does in the source: a
failed batch leaves the store untouched, a failed pointer write leaves the
batch applied but the pointer unchanged, and both failures surface the
engine error to the caller. -/
def write_block (db : DB) (tree : MerkleTree) (hash : Bytes) (height : Nat)
    (subspaces : SS) (batchErr ptrErr : Option String) :
    DB × Except DbError Unit :=
  match batchErr with
  | some e => (db, .error (.RocksDBError e))
  | none =>
    let db1 := blockBatch tree hash height subspaces db
    match ptrErr with
    | some e => (db1, .error (.RocksDBError e))
    | none => (aPut heightPtrKey (heightEncode height) db1, .ok ())

/-- The operation `DB::write_chain_id`. -/
def write_chain_id (db : DB) (chainId : List Char) (err : Option String) :
    DB × Except DbError Unit :=
  match err with
  | some e => (db, .error (.RocksDBError e))
  | none => (aPut chainIdKey (strEncode chainId) db, .ok ())

/-- Modelled from the spec: `BlockHeight::prev_height` is the strictly
smaller predecessor height when one exists. -/
def prevHeight (h : Nat) : Option Nat := if h = 0 then none else some (h - 1)

/-- The operation `DB::read`: exact-height subspace lookup, recursing through predecessor
heights while the key is absent.  The recursion is phrased on the height
for structural termination; `DB.read_eq` below restates it in the shape of
the source (lookup first, then fall back through `prev_height`). -/
def DB.read (db : DB) (height addr : Nat) (column : List Char) : Option Bytes :=
  match height with
  | 0 =>
    match aGet db (subspaceKey 0 addr column) with
    | some bytes => some bytes
    | none => none
  | h + 1 =>
    match aGet db (subspaceKey (h + 1) addr column) with
    | some bytes => some bytes
    | none => DB.read db h addr column

/-- Accumulator of the key-classification loop in `read_last_block`. -/
structure ScanState where
  root : Option Bytes
  store : Option Bytes
  hash : Option Bytes
  subspaces : SS
deriving DecidableEq

/-- One iteration of the scan loop of `read_last_block`: classify the key
by its second `/`-segment, exactly as the nested `match` in the source. -/
def scanEntry (st : ScanState) (e : StoreKey × Bytes) : Except DbError ScanState :=
  let segments := splitCh e.1
  match segments.get? 1 with
  | some seg =>
    if seg = "tree".data then
      match segments.get? 2 with
      | some smt =>
        if smt = "root".data then .ok { st with root := some e.2 }
        else if smt = "store".data then .ok { st with store := some e.2 }
        else .error (.UnknownKey e.1)
      | none => .error (.UnknownKey e.1)
    else if seg = "hash".data then .ok { st with hash := some e.2 }
    else if seg = "subspace".data then
      match segments.get? 2 with
      | some addrSeg =>
        match addrFromSeg addrSeg with
        | some addr =>
          .ok { st with
            subspaces := aPut (addr, joinCh (segments.drop 3)) e.2 st.subspaces }
        | none => .error (.Temporary "Cannot parse address from key segment")
      | none => .error (.UnknownKey e.1)
    else .error (.UnknownKey e.1)
  | none => .error (.UnknownKey e.1)

/-- The scan loop of `read_last_block`, aborting at the first failing key. -/
def runScan (st : ScanState) : List (StoreKey × Bytes) → Except DbError ScanState
  | [] => .ok st
  | e :: rest =>
    match scanEntry st e with
    | .ok st' => runScan st' rest
    | .error err => .error err

/-- Is key `k` inside the engine scan `[lo, hi)` under the comparator? -/
def inScanRange (lo hi k : StoreKey) : Bool :=
  !decide (key_comparator k lo = .lt) && decide (key_comparator k hi = .lt)

/-- Ascending insertion under the comparator. -/
def insertSorted (p : StoreKey × Bytes) :
    List (StoreKey × Bytes) → List (StoreKey × Bytes)
  | [] => [p]
  | q :: rest =>
    if key_comparator p.1 q.1 = .gt then q :: insertSorted p rest
    else p :: q :: rest

/-- Comparator-ascending ordering of entries, as the engine iterates. -/
def sortByKey (l : List (StoreKey × Bytes)) : List (StoreKey × Bytes) :=
  l.foldr insertSorted []

/-- The bounded forward scan of the engine: all bindings with key in
`[lo, hi)` under the comparator, in comparator order. -/
def scanRange (db : DB) (lo hi : StoreKey) : List (StoreKey × Bytes) :=
  sortByKey (db.filter fun p => inScanRange lo hi p.1)

/-- The operation `DB::read_last_block`: read the chain id and the height pointer (each
absence yields an empty result), scan the pointed height's key range
bounded by the next height's prefix (next_height modelled from the spec as
the successor), classify every key, and reconstruct the block, failing when
the root, store or hash was never observed. -/
def read_last_block (db : DB) :
    Except DbError (Option (List Char × MerkleTree × Bytes × Nat × SS)) :=
  match aGet db chainIdKey with
  | none => .ok none
  | some cidBytes =>
    let chain_id := strDecode cidBytes
    match aGet db heightPtrKey with
    | none => .ok none
    | some hBytes =>
      let height := heightDecode hBytes
      let lo := natSeg height ++ ['/']
      let hi := natSeg (height + 1) ++ ['/']
      match runScan ⟨none, none, none, []⟩ (scanRange db lo hi) with
      | .error e => .error e
      | .ok st =>
        match st.root, st.store, st.hash with
        | some root, some store, some hash =>
          .ok (some (chain_id, ⟨root, store⟩, hash, height, st.subspaces))
        | _, _, _ =>
          .error (.Temporary "Essential data couldn\x27t be read from the DB")

/-- A store holding a complete height 1 plus the extra key `1/hash/x`,
which matches none of the documented shapes `h/tree/root`, `h/tree/store`,
`h/hash`, `h/subspace/<address>/<column>`. -/
def dbHashSuffix : DB :=
  [(chainIdKey, strEncode "A".data), (heightPtrKey, heightEncode 1),
    (treeRootKey 1, [2]), (treeStoreKey 1, [3]), (blockHashKey 1, [4]),
    ("1/hash/x".data, [5])]

/-- The classifier's actual shape test: dispatch on the second segment,
with `tree` requiring a third segment in {root, store} and `subspace`
requiring some third segment; trailing extra segments are never checked. -/
def shapeOk (k : StoreKey) : Bool :=
  match (splitCh k).get? 1 with
  | some seg =>
    if seg = "tree".data then
      match (splitCh k).get? 2 with
      | some smt => decide (smt = "root".data) || decide (smt = "store".data)
      | none => false
    else if seg = "hash".data then true
    else if seg = "subspace".data then ((splitCh k).get? 2).isSome
    else false
  | none => false

/-- Does an entry with this key process without aborting the scan (known
shape and, for subspace keys, a parseable address segment)? -/
def entryOk (k : StoreKey) : Bool :=
  shapeOk k &&
    (match (splitCh k).get? 1, (splitCh k).get? 2 with
     | some seg, some addrSeg =>
       if seg = "subspace".data then (addrFromSeg addrSeg).isSome else true
     | _, _ => true)

/-- Does the classifier record this key as the Merkle root? -/
def setsRoot (k : StoreKey) : Bool :=
  decide ((splitCh k).get? 1 = some "tree".data)
    && decide ((splitCh k).get? 2 = some "root".data)

/-- Does the classifier record this key as the Merkle store? -/
def setsStore (k : StoreKey) : Bool :=
  decide ((splitCh k).get? 1 = some "tree".data)
    && decide ((splitCh k).get? 2 = some "store".data)

/-- Does the classifier record this key as the block hash? -/
def setsHash (k : StoreKey) : Bool :=
  decide ((splitCh k).get? 1 = some "hash".data)

/-- A call into the write interface of `db.rs` (successful engine writes;
failure injection is studied separately through `write_block`). -/
inductive Op where
  | writeBlock (tree : MerkleTree) (hash : Bytes) (height : Nat) (subspaces : SS)
  | writeChainId (cid : List Char)

/-- Apply one successful call to the store. -/
def applyOp (db : DB) : Op → DB
  | .writeBlock t hsh ht ss => (write_block db t hsh ht ss none none).1
  | .writeChainId cid => (write_chain_id db cid none).1

/-- Apply a sequence of calls, first element first. -/
def applyOps : DB → List Op → DB := List.foldl applyOp

/-- The value the subspace part of one batch leaves under key `k`
(the last matching entry of the batch wins). -/
def ssGetK (ht : Nat) (ss : SS) (k : StoreKey) : Option Bytes :=
  (ss.reverse.find? fun e => decide (subspaceKey ht e.1.1 e.1.2 = k)).map (·.2)

/-- The value one `write_block` batch leaves under key `k`. -/
def batchGet (t : MerkleTree) (hsh : Bytes) (ht : Nat) (ss : SS) (k : StoreKey) :
    Option Bytes :=
  Option.orElse (ssGetK ht ss k) fun _ =>
    if k = blockHashKey ht then some hsh
    else if k = treeStoreKey ht then some t.store
    else if k = treeRootKey ht then some t.root
    else none

/-- The value one call writes under key `k`, if any. -/
def opGet : Op → StoreKey → Option Bytes
  | .writeBlock t hsh ht ss, k =>
    if k = heightPtrKey then some (heightEncode ht) else batchGet t hsh ht ss k
  | .writeChainId cid, k => if k = chainIdKey then some (strEncode cid) else none

/-- The value a sequence of calls leaves under key `k` (later calls win). -/
def opsGet : List Op → StoreKey → Option Bytes
  | [], _ => none
  | op :: rest, k => Option.orElse (opsGet rest k) fun _ => opGet op k

/-- Does the sequence contain a `write_chain_id` call? -/
def hasChainIdOp : List Op → Bool
  | [] => false
  | op :: rest =>
    hasChainIdOp rest
      || (match op with | .writeChainId _ => true | _ => false)

/-- The height of the last `write_block` call of the sequence. -/
def lastBlockHeight : List Op → Option Nat
  | [] => none
  | op :: rest =>
    Option.orElse (lastBlockHeight rest) fun _ =>
      match op with
      | .writeBlock _ _ ht _ => some ht
      | _ => none

/-- Are all block heights of the sequence `u64` values whose successor is
also a `u64` value (as `next_height` requires)? -/
def opsHeightsOK : List Op → Bool
  | [] => true
  | .writeBlock _ _ ht _ :: rest => decide (ht + 1 < 2 ^ 64) && opsHeightsOK rest
  | .writeChainId _ :: rest => opsHeightsOK rest

/-- The last subspace value any `write_block` call at height `H` passed for
address `a`, column `c` — the union of the subspace writes at `H`, later
calls (and later entries within one call) taking precedence. -/
def subspaceWritesAt (ops : List Op) (H a : Nat) (c : List Char) : Option Bytes :=
  match ops with
  | [] => none
  | op :: rest =>
    Option.orElse (subspaceWritesAt rest H a c) fun _ =>
      match op with
      | .writeBlock _ _ ht ss =>
        if ht = H then (ss.reverse.find? fun e => decide (e.1 = (a, c))).map (·.2)
        else none
      | .writeChainId _ => none

/-- The keys one call may write. -/
def opKey (op : Op) (k : StoreKey) : Prop :=
  match op with
  | .writeBlock _ _ ht _ =>
    k = heightPtrKey ∨ k = treeRootKey ht ∨ k = treeStoreKey ht
      ∨ k = blockHashKey ht ∨ ∃ a c, k = subspaceKey ht a c
  | .writeChainId _ => k = chainIdKey

/-- A key canonically written at height `H`. -/
def canonEntry (H : Nat) (k : StoreKey) : Prop :=
  k = treeRootKey H ∨ k = treeStoreKey H ∨ k = blockHashKey H
    ∨ ∃ a c, k = subspaceKey H a c

/-- A concrete operation sequence: a chain id write, a block at height 1,
then a block at height 2. -/
def opsW : List Op :=
  [Op.writeChainId "A".data,
    Op.writeBlock ⟨[1], [2]⟩ [3] 1 [((7, "c".data), [9])],
    Op.writeBlock ⟨[4], [5]⟩ [6] 2 [((8, "d".data), [10])]]

/-- The type `ibc::ics04_channel::channel::State`. -/
inductive ChanState where
  | Uninitialized
  | Init
  | TryOpen
  | Open
  | Closed
deriving DecidableEq

/-- Display of a channel state, as the `ibc` crate renders it. -/
def stateStr : ChanState → String
  | .Uninitialized => "UNINITIALIZED"
  | .Init => "INIT"
  | .TryOpen => "TRYOPEN"
  | .Open => "OPEN"
  | .Closed => "CLOSED"

/-- The type `ibc::ics04_channel::channel::Counterparty`. -/
structure ChanCounterparty where
  portId : String
  channelId : Option String
deriving DecidableEq

/-- The type `ibc::ics04_channel::channel::ChannelEnd` (ordering kept as its
feature string, which is all `channel.rs` uses of it). -/
structure ChannelEnd where
  state : ChanState
  ordering : String
  counterparty : ChanCounterparty
  connectionHops : List String
  version : String
deriving DecidableEq

/-- A connection version: `channel.rs` only queries feature support. -/
structure ConnVersion where
  isSupportedFeature : String → Bool

/-- The type `ConnectionEnd`: `channel.rs` uses its versions and counterparty id. -/
structure ConnEnd where
  versions : List ConnVersion
  counterpartyConnId : Option String

/-- Decoded tx data carrying proofs (`ChannelOpenTryData` and friends);
`proofs()` can itself fail. -/
structure TxProofData where
  proofs : Except String Nat

/-- The type `super::StateChange`. -/
inductive StateChange where
  | Created
  | Updated
  | Other
deriving DecidableEq

/-- The error enum of `channel.rs`. -/
inductive ChError where
  | nativeVp (e : String)
  | keyErr (e : String)
  | stateChangeErr (e : String)
  | connErr (e : String)
  | chanErr (e : String)
  | portErr (e : String)
  | versionErr (e : String)
  | seqErr (e : String)
  | packetErr (e : String)
  | proofErr (e : String)
  | decodeTx (e : String)
  | ibcData (e : String)
deriving DecidableEq

/-- The collaborators of the channel validity predicate: the native-VP
storage context (pre/post reads, counters, capability table, state-change
detection) and the `ibc` crate's codecs and verifiers. -/
structure IbcCtx where
  lookupModuleByPort : String → Option Nat
  authenticate : Nat → String → Bool
  readPost : List String → Except String (Option Bytes)
  readPre : List String → Except String (Option Bytes)
  readCounterPre : List String → Except String Nat
  readCounter : List String → Nat
  decodeChannelEnd : Bytes → Except String ChannelEnd
  channelIdFromStr : String → Except String String
  getStateChange : List String → Except String StateChange
  connectionEnd : String → Option ConnEnd
  validateBasic : ChannelEnd → Except String Unit
  decodeOpenTry : Bytes → Except String TxProofData
  decodeOpenAck : Bytes → Except String TxProofData
  decodeOpenConfirm : Bytes → Except String TxProofData
  decodeCloseConfirm : Bytes → Except String TxProofData
  decodeCloseInit : Bytes → Except String Unit
  verifyChannelProofs : ChannelEnd → ConnEnd → ChannelEnd → Nat → Except String Unit

/-- Modelled from the spec: the storage key of the IBC channel counter
(`Key::ibc_channel_counter`, defined outside this tree). -/
def ibcChannelCounterKey : List String := ["#IBC", "channelCounter"]

/-- Modelled from the spec: `Key::is_ibc_channel_counter`. -/
def is_ibc_channel_counter (k : List String) : Bool := k = ibcChannelCounterKey

/-- Modelled from the spec: the channel-ends key
`#IBC/channelEnds/ports/{port_id}/channels/{channel_id}` built by
`Path::ChannelEnds` and `Key::ibc_key`. -/
def channelEndsKey (p c : String) : List String :=
  ["#IBC", "channelEnds", "ports", p, "channels", c]

/-- Rendering of a key for error messages. -/
def keyStr (k : List String) : String := String.intercalate "/" k

/-- Modelled from the spec: `get_port_id` reads the port segment of a
channel key (segment 3, after `#IBC/channelEnds/ports`). -/
def get_port_id (k : List String) : Except String String :=
  match k.get? 3 with
  | some p => .ok p
  | none => .error ("The key does not have a port ID: " ++ keyStr k)

/-- The function `get_channel_id` from `channel.rs`: segment 5 parsed as a channel id. -/
def get_channel_id (ctx : IbcCtx) (k : List String) : Except ChError String :=
  match k.get? 5 with
  | some id => (ctx.channelIdFromStr id).mapError ChError.keyErr
  | none =>
    .error (.keyErr ("The key doesn\x27t have a channel ID: " ++ keyStr k))

/-- The function `authenticated_capability` from `channel.rs`; the `Ics04` error
displays are modelled. -/
def authenticated_capability (ctx : IbcCtx) (p : String) : Except String Nat :=
  match ctx.lookupModuleByPort p with
  | some cap =>
    if ctx.authenticate cap p then .ok cap
    else .error "invalid port capability"
  | none => .error ("no port capability associated with the port: " ++ p)

/-- The function `channel_counter_pre` from `channel.rs`. -/
def channel_counter_pre (ctx : IbcCtx) : Except ChError Nat :=
  (ctx.readCounterPre ibcChannelCounterKey).mapError ChError.chanErr

/-- The function `ChannelReader::channel_counter` from `channel.rs`. -/
def channel_counter (ctx : IbcCtx) : Nat := ctx.readCounter ibcChannelCounterKey

/-- The function `ChannelReader::channel_end` from `channel.rs`: `None` on absence, on
a failed storage read, and on a failed decode. -/
def channel_end (ctx : IbcCtx) (pcid : String × String) : Option ChannelEnd :=
  match ctx.readPost (channelEndsKey pcid.1 pcid.2) with
  | .ok (some value) => (ctx.decodeChannelEnd value).toOption
  | _ => none

/-- The function `channel_end_pre` from `channel.rs`. -/
def channel_end_pre (ctx : IbcCtx) (pcid : String × String) :
    Except ChError ChannelEnd :=
  match ctx.readPre (channelEndsKey pcid.1 pcid.2) with
  | .ok (some value) =>
    (ctx.decodeChannelEnd value).mapError fun e =>
      .chanErr ("Decoding the channel failed: Port " ++ pcid.1 ++ ", Channel "
        ++ pcid.2 ++ ", " ++ e)
  | .ok none =>
    .error (.chanErr ("The prior channel doesn\x27t exist: Port " ++ pcid.1
      ++ ", Channel " ++ pcid.2))
  | .error e =>
    .error (.chanErr ("Reading the prior channel failed: " ++ e))

/-- The function `connection_from_channel` from `channel.rs`. -/
def connection_from_channel (ctx : IbcCtx) (channel : ChannelEnd) :
    Except ChError ConnEnd :=
  match channel.connectionHops.get? 0 with
  | some connId =>
    match ctx.connectionEnd connId with
    | some conn => .ok conn
    | none =>
      .error (.connErr ("The connection doesn\x27t exist: ID " ++ connId))
  | none =>
    .error (.connErr "the corresponding connection ID doesn\x27t exist")

/-- The function `validate_version` from `channel.rs`. -/
def validate_version (ctx : IbcCtx) (channel : ChannelEnd) :
    Except ChError Unit :=
  match connection_from_channel ctx channel with
  | .error e => .error e
  | .ok connection =>
    match connection.versions with
    | [version] =>
      if version.isSupportedFeature channel.ordering then .ok ()
      else
        .error (.versionErr ("The version is unsupported: Feature "
          ++ channel.ordering))
    | _ =>
      .error (.versionErr "Multiple versions are specified or no version")

/-- The function `get_channel_state_change` from `channel.rs`. -/
def get_channel_state_change (ctx : IbcCtx) (pcid : String × String) :
    Except ChError StateChange :=
  (ctx.getStateChange (channelEndsKey pcid.1 pcid.2)).mapError
    ChError.stateChangeErr

/-- The function `verify_proofs` from `channel.rs`. -/
def verify_proofs (ctx : IbcCtx) (channel : ChannelEnd)
    (expectedMySide : ChanCounterparty) (expectedState : ChanState)
    (proofs : Nat) : Except ChError Bool :=
  match connection_from_channel ctx channel with
  | .error e => .error e
  | .ok connection =>
    match connection.counterpartyConnId with
    | none =>
      .error (.connErr "The counterpart connection ID doesn\x27t exist")
    | some counterpartConnId =>
      let expectedChannel : ChannelEnd :=
        { state := expectedState, ordering := channel.ordering,
          counterparty := expectedMySide,
          connectionHops := [counterpartConnId],
          version := channel.version }
      match ctx.verifyChannelProofs channel connection expectedChannel proofs with
      | .ok _ => .ok true
      | .error e => .error (.proofErr e)

/-- The function `verify_channel_try_proof` from `channel.rs`. -/
def verify_channel_try_proof (ctx : IbcCtx) (pcid : String × String)
    (channel : ChannelEnd) (txData : Bytes) : Except ChError Bool :=
  match ctx.decodeOpenTry txData with
  | .error e => .error (.decodeTx e)
  | .ok data =>
    match data.proofs with
    | .error e => .error (.ibcData e)
    | .ok proofs =>
      verify_proofs ctx channel ⟨pcid.1, none⟩ .Init proofs

/-- The function `verify_channel_ack_proof` from `channel.rs`. -/
def verify_channel_ack_proof (ctx : IbcCtx) (pcid : String × String)
    (channel : ChannelEnd) (txData : Bytes) : Except ChError Bool :=
  match ctx.decodeOpenAck txData with
  | .error e => .error (.decodeTx e)
  | .ok data =>
    match data.proofs with
    | .error e => .error (.ibcData e)
    | .ok proofs =>
      verify_proofs ctx channel ⟨pcid.1, some pcid.2⟩ .TryOpen proofs

/-- The function `verify_channel_confirm_proof` from `channel.rs`. -/
def verify_channel_confirm_proof (ctx : IbcCtx) (pcid : String × String)
    (channel : ChannelEnd) (txData : Bytes) : Except ChError Bool :=
  match ctx.decodeOpenConfirm txData with
  | .error e => .error (.decodeTx e)
  | .ok data =>
    match data.proofs with
    | .error e => .error (.ibcData e)
    | .ok proofs =>
      verify_proofs ctx channel ⟨pcid.1, some pcid.2⟩ .Open proofs

/-- The function `verify_channel_close_proof` from `channel.rs`. -/
def verify_channel_close_proof (ctx : IbcCtx) (pcid : String × String)
    (channel : ChannelEnd) (txData : Bytes) : Except ChError Bool :=
  match ctx.decodeCloseConfirm txData with
  | .error e => .error (.decodeTx e)
  | .ok data =>
    match data.proofs with
    | .error e => .error (.ibcData e)
    | .ok proofs =>
      verify_proofs ctx channel ⟨pcid.1, some pcid.2⟩ .Closed proofs

/-- The function `validate_updated_channel` from `channel.rs`. -/
def validate_updated_channel (ctx : IbcCtx) (pcid : String × String)
    (channel : ChannelEnd) (txData : Bytes) : Except ChError Bool :=
  match channel_end_pre ctx pcid with
  | .error e => .error e
  | .ok prevChannel =>
    match channel.state with
    | .Open =>
      match prevChannel.state with
      | .Init => verify_channel_ack_proof ctx pcid channel txData
      | .TryOpen => verify_channel_confirm_proof ctx pcid channel txData
      | _ =>
        .error (.stateChangeErr ("The state change of the channel is invalid: "
          ++ "Port " ++ pcid.1 ++ ", Channel " ++ pcid.2))
    | .Closed =>
      if ¬prevChannel.state = .Open then
        .error (.stateChangeErr ("The state change of the channel is invalid: "
          ++ "Port " ++ pcid.1 ++ ", Channel " ++ pcid.2))
      else
        match ctx.decodeCloseInit txData with
        | .ok _ => .ok true
        | .error _ => verify_channel_close_proof ctx pcid channel txData
    | _ =>
      .error (.stateChangeErr ("The state change of the channel is invalid: "
        ++ "Port " ++ pcid.1 ++ ", Channel " ++ pcid.2))

/-- The function `validate_channel` from `channel.rs`. -/
def validate_channel (ctx : IbcCtx) (key : List String) (txData : Bytes) :
    Except ChError Bool :=
  if is_ibc_channel_counter key then
    match channel_counter_pre ctx with
    | .ok pre => .ok (decide (pre < channel_counter ctx))
    | .error e => .error e
  else
    match get_port_id key with
    | .error e => .error (.keyErr e)
    | .ok portId =>
      match get_channel_id ctx key with
      | .error e => .error e
      | .ok channelId =>
        match authenticated_capability ctx portId with
        | .error e =>
          .error (.portErr ("The port is not authenticated: ID " ++ portId
            ++ ", " ++ e))
        | .ok _ =>
          match channel_end ctx (portId, channelId) with
          | none =>
            .error (.chanErr ("The channel doesn\x27t exist: Port " ++ portId
              ++ ", Channel " ++ channelId))
          | some channel =>
            match ctx.validateBasic channel with
            | .error e =>
              .error (.chanErr ("The channel is invalid: Port " ++ portId
                ++ ", Channel " ++ channelId ++ ", " ++ e))
            | .ok _ =>
              match validate_version ctx channel with
              | .error e => .error e
              | .ok _ =>
                match get_channel_state_change ctx (portId, channelId) with
                | .error e => .error e
                | .ok stateChange =>
                  match stateChange with
                  | .Created =>
                    match channel.state with
                    | .Init => .ok true
                    | .TryOpen =>
                      verify_channel_try_proof ctx (portId, channelId) channel
                        txData
                    | _ =>
                      .error (.chanErr ("The channel state is invalid: Port "
                        ++ portId ++ ", Channel " ++ channelId ++ ", State "
                        ++ stateStr channel.state))
                  | .Updated =>
                    validate_updated_channel ctx (portId, channelId) channel
                      txData
                  | .Other =>
                    .error (.stateChangeErr
                      ("The state change of the channel: Port " ++ portId
                        ++ ", Channel " ++ channelId))

/-- A concrete context whose pre-state counter is 0 and post-state counter
is 1, all other collaborators inert. -/
def ctxCounter : IbcCtx :=
  { lookupModuleByPort := fun _ => none
    authenticate := fun _ _ => false
    readPost := fun _ => .ok none
    readPre := fun _ => .ok none
    readCounterPre := fun _ => .ok 0
    readCounter := fun _ => 1
    decodeChannelEnd := fun _ => .error "no decode"
    channelIdFromStr := fun s => .ok s
    getStateChange := fun _ => .ok .Other
    connectionEnd := fun _ => none
    validateBasic := fun _ => .ok ()
    decodeOpenTry := fun _ => .error "no decode"
    decodeOpenAck := fun _ => .error "no decode"
    decodeOpenConfirm := fun _ => .error "no decode"
    decodeCloseConfirm := fun _ => .error "no decode"
    decodeCloseInit := fun _ => .error "no decode"
    verifyChannelProofs := fun _ _ _ _ => .error "no proof" }

/-- A concrete context whose post-state read always fails with an engine
error while the port is authenticated. -/
def ctxReadFail : IbcCtx :=
  { lookupModuleByPort := fun _ => some 0
    authenticate := fun _ _ => true
    readPost := fun _ => .error "io error"
    readPre := fun _ => .ok none
    readCounterPre := fun _ => .ok 0
    readCounter := fun _ => 0
    decodeChannelEnd := fun _ => .error "no decode"
    channelIdFromStr := fun s => .ok s
    getStateChange := fun _ => .ok .Other
    connectionEnd := fun _ => none
    validateBasic := fun _ => .ok ()
    decodeOpenTry := fun _ => .error "no decode"
    decodeOpenAck := fun _ => .error "no decode"
    decodeOpenConfirm := fun _ => .error "no decode"
    decodeCloseConfirm := fun _ => .error "no decode"
    decodeCloseInit := fun _ => .error "no decode"
    verifyChannelProofs := fun _ _ _ _ => .error "no proof" }

/-! ### Properties -/

theorem digitVal_digitChar {d : Nat} (h : d < 10) : digitVal (digitChar d) = d := by
  interval_cases d <;> decide

theorem isDigitCh_digitChar {d : Nat} (h : d < 10) : isDigitCh (digitChar d) = true := by
  interval_cases d <;> decide

theorem digitsVal_append (l : List Char) (c : Char) :
    digitsVal (l ++ [c]) = digitsVal l * 10 + digitVal c := by
  simp [digitsVal, List.foldl_append]

theorem natSegF_spec :
    ∀ fuel n, n < fuel →
      natSegF fuel n ≠ [] ∧ (∀ c ∈ natSegF fuel n, isDigitCh c = true) ∧
        digitsVal (natSegF fuel n) = n := by
  intro fuel
  induction fuel with
  | zero => omega
  | succ f ih =>
    intro n hn
    by_cases h10 : n < 10
    · refine ⟨by simp [natSegF, h10], ?_, ?_⟩
      · intro c hc
        simp [natSegF, h10] at hc
        subst hc
        exact isDigitCh_digitChar h10
      · simp [natSegF, h10, digitsVal, List.foldl, digitVal_digitChar h10]
    · have hdiv : n / 10 < n := Nat.div_lt_self (by omega) (by omega)
      obtain ⟨hne, hdig, hval⟩ := ih (n / 10) (by omega)
      refine ⟨by simp [natSegF, h10], ?_, ?_⟩
      · intro c hc
        simp only [natSegF, h10, if_false, List.mem_append, List.mem_singleton] at hc
        rcases hc with hc | hc
        · exact hdig c hc
        · subst hc
          exact isDigitCh_digitChar (by omega)
      · simp only [natSegF, h10, if_false, digitsVal_append, hval,
          digitVal_digitChar (show n % 10 < 10 by omega)]
        omega

theorem natSeg_ne_nil (n : Nat) : natSeg n ≠ [] :=
  (natSegF_spec (n + 1) n (by omega)).1

theorem natSeg_all_digits (n : Nat) : ∀ c ∈ natSeg n, isDigitCh c = true :=
  (natSegF_spec (n + 1) n (by omega)).2.1

theorem digitsVal_natSeg (n : Nat) : digitsVal (natSeg n) = n :=
  (natSegF_spec (n + 1) n (by omega)).2.2

theorem natSeg_inj {m n : Nat} (h : natSeg m = natSeg n) : m = n := by
  have := digitsVal_natSeg m
  rw [h, digitsVal_natSeg] at this
  omega

theorem digit_ne_slash {c : Char} (h : isDigitCh c = true) : c ≠ '/' := by
  intro he
  subst he
  exact absurd h (by decide)

theorem digit_ne_plus {c : Char} (h : isDigitCh c = true) : c ≠ '+' := by
  intro he
  subst he
  exact absurd h (by decide)

theorem parseU64_natSeg {n : Nat} (h : n < 2 ^ 64) : parseU64 (natSeg n) = some n := by
  obtain ⟨c, t, hct⟩ : ∃ c t, natSeg n = c :: t := by
    cases hh : natSeg n with
    | nil => exact absurd hh (natSeg_ne_nil n)
    | cons c t => exact ⟨c, t, rfl⟩
  have hdig := natSeg_all_digits n
  have hcd : isDigitCh c = true := hdig c (by rw [hct]; exact List.mem_cons_self c t)
  have hplus : c ≠ '+' := digit_ne_plus hcd
  have hall : (natSeg n).all isDigitCh = true := List.all_eq_true.mpr hdig
  simp only [parseU64, hct]
  have hmatch :
      (match c :: t with
        | '+' :: rest => rest
        | _ => c :: t) = c :: t := by
    split
    · next heq => exact absurd (List.cons.inj heq).1 hplus
    · rfl
  rw [hmatch, ← hct]
  simp [hall, natSeg_ne_nil n, digitsVal_natSeg n]
  omega

theorem splitCh_ne_nil (l : List Char) : splitCh l ≠ [] := by
  cases l with
  | nil => simp [splitCh]
  | cons c rest =>
    simp only [splitCh]
    split
    · simp
    · split <;> simp

theorem splitCh_no_slash (l : List Char) (h : ∀ c ∈ l, c ≠ '/') : splitCh l = [l] := by
  induction l with
  | nil => rfl
  | cons c rest ih =>
    have hc : c ≠ '/' := h c (List.mem_cons_self c rest)
    have hrest := ih fun x hx => h x (List.mem_cons_of_mem c hx)
    simp [splitCh, hc, hrest]

theorem splitCh_append (x y : List Char) (hx : ∀ c ∈ x, c ≠ '/') :
    splitCh (x ++ '/' :: y) = x :: splitCh y := by
  induction x with
  | nil => simp [splitCh]
  | cons c x' ih =>
    have hc : c ≠ '/' := hx c (List.mem_cons_self c x')
    have := ih fun d hd => hx d (List.mem_cons_of_mem c hd)
    simp [splitCh, hc, this]

theorem joinCh_splitCh (l : List Char) : joinCh (splitCh l) = l := by
  induction l with
  | nil => rfl
  | cons c rest ih =>
    by_cases hc : c = '/'
    · subst hc
      have h1 : splitCh ('/' :: rest) = [] :: splitCh rest := by simp [splitCh]
      rw [h1]
      cases hsp : splitCh rest with
      | nil => exact absurd hsp (splitCh_ne_nil rest)
      | cons s segs =>
        rw [hsp] at ih
        simp [joinCh, ← ih]
    · cases hsp : splitCh rest with
      | nil => exact absurd hsp (splitCh_ne_nil rest)
      | cons s segs =>
        have h1 : splitCh (c :: rest) = (c :: s) :: segs := by simp [splitCh, hc, hsp]
        rw [hsp] at ih
        rw [h1]
        cases segs with
        | nil => simpa [joinCh] using congrArg (c :: ·) ih
        | cons s2 t => simpa [joinCh] using congrArg (c :: ·) ih

theorem splitCh_natSeg (h : Nat) (s : List Char) :
    splitCh (natSeg h ++ '/' :: s) = natSeg h :: splitCh s :=
  splitCh_append _ _ fun c hc => digit_ne_slash (natSeg_all_digits h c hc)

theorem natCmp_eq_lt {m n : Nat} : natCmp m n = .lt ↔ m < n := by
  unfold natCmp
  split_ifs <;> simp_all

theorem natCmp_eq_eq {m n : Nat} : natCmp m n = .eq ↔ m = n := by
  unfold natCmp
  split_ifs with h1 h2 <;> simp_all
  omega

theorem natCmp_swap (m n : Nat) : natCmp n m = (natCmp m n).swap := by
  unfold natCmp
  rcases Nat.lt_trichotomy m n with h | h | h
  · have h1 : ¬n < m := by omega
    have h2 : ¬n = m := by omega
    simp [h, h1, h2, Ordering.swap]
  · subst h
    simp [Nat.lt_irrefl, Ordering.swap]
  · have h1 : ¬m < n := by omega
    have h2 : ¬m = n := by omega
    simp [h, h1, h2, Ordering.swap]

theorem charCmp_eq_eq {a b : Char} : charCmp a b = .eq ↔ a = b := by
  unfold charCmp
  rw [natCmp_eq_eq]
  constructor
  · intro h
    exact Char.ext (UInt32.ext h)
  · intro h
    rw [h]

theorem charCmp_swap (a b : Char) : charCmp b a = (charCmp a b).swap := natCmp_swap _ _

theorem charCmp_lt_trans {a b c : Char} (h1 : charCmp a b = .lt) (h2 : charCmp b c = .lt) :
    charCmp a c = .lt := by
  unfold charCmp at *
  rw [natCmp_eq_lt] at *
  omega

theorem listCmp_swap (cmp : α → α → Ordering) (hswap : ∀ x y, cmp y x = (cmp x y).swap) :
    ∀ l1 l2, listCmp cmp l2 l1 = (listCmp cmp l1 l2).swap := by
  intro l1
  induction l1 with
  | nil => intro l2; cases l2 <;> rfl
  | cons a as ih =>
    intro l2
    cases l2 with
    | nil => rfl
    | cons b bs =>
      simp only [listCmp]
      rw [hswap a b]
      cases hab : cmp a b with
      | lt => rfl
      | gt => rfl
      | eq => exact ih bs

theorem listCmp_eq_eq (cmp : α → α → Ordering) (heq : ∀ x y, cmp x y = .eq ↔ x = y) :
    ∀ l1 l2, listCmp cmp l1 l2 = .eq ↔ l1 = l2 := by
  intro l1
  induction l1 with
  | nil => intro l2; cases l2 <;> simp [listCmp]
  | cons a as ih =>
    intro l2
    cases l2 with
    | nil => simp [listCmp]
    | cons b bs =>
      simp only [listCmp]
      cases hab : cmp a b with
      | eq =>
        have : a = b := (heq a b).mp hab
        simp [this, ih bs]
      | lt =>
        have : ¬a = b := fun h => by
          rw [h] at hab
          have := (heq b b).mpr rfl
          rw [hab] at this
          exact absurd this (by simp)
        simp [this]
      | gt =>
        have : ¬a = b := fun h => by
          rw [h] at hab
          have := (heq b b).mpr rfl
          rw [hab] at this
          exact absurd this (by simp)
        simp [this]

theorem listCmp_lt_trans (cmp : α → α → Ordering) (heq : ∀ x y, cmp x y = .eq ↔ x = y)
    (htr : ∀ x y z, cmp x y = .lt → cmp y z = .lt → cmp x z = .lt) :
    ∀ l1 l2 l3, listCmp cmp l1 l2 = .lt → listCmp cmp l2 l3 = .lt →
      listCmp cmp l1 l3 = .lt := by
  intro l1
  induction l1 with
  | nil =>
    intro l2 l3 h12 h23
    cases l3 with
    | nil =>
      cases l2 with
      | nil => simp [listCmp] at h12
      | cons b bs => simp [listCmp] at h23
    | cons c cs => simp [listCmp]
  | cons a as ih =>
    intro l2 l3 h12 h23
    cases l2 with
    | nil => simp [listCmp] at h12
    | cons b bs =>
      cases l3 with
      | nil => simp [listCmp] at h23
      | cons c cs =>
        simp only [listCmp] at h12 h23 ⊢
        cases hab : cmp a b with
        | gt => rw [hab] at h12; exact absurd h12 (by simp)
        | lt =>
          cases hbc : cmp b c with
          | gt => rw [hbc] at h23; exact absurd h23 (by simp)
          | lt => rw [htr a b c hab hbc]
          | eq =>
            have hbceq : b = c := (heq b c).mp hbc
            rw [← hbceq, hab]
        | eq =>
          rw [hab] at h12
          have habeq : a = b := (heq a b).mp hab
          cases hbc : cmp b c with
          | gt => rw [hbc] at h23; exact absurd h23 (by simp)
          | lt => rw [habeq, hbc]
          | eq =>
            have hbceq : b = c := (heq b c).mp hbc
            rw [hbc] at h23
            rw [habeq, hbc]
            exact ih bs cs h12 h23

theorem strCmp_eq_eq {l1 l2 : List Char} : strCmp l1 l2 = .eq ↔ l1 = l2 :=
  listCmp_eq_eq charCmp (fun _ _ => charCmp_eq_eq) l1 l2

theorem strCmp_swap (l1 l2 : List Char) : strCmp l2 l1 = (strCmp l1 l2).swap :=
  listCmp_swap charCmp charCmp_swap l1 l2

theorem strCmp_lt_trans {l1 l2 l3 : List Char} (h1 : strCmp l1 l2 = .lt)
    (h2 : strCmp l2 l3 = .lt) : strCmp l1 l3 = .lt :=
  listCmp_lt_trans charCmp (fun _ _ => charCmp_eq_eq)
    (fun _ _ _ => charCmp_lt_trans) l1 l2 l3 h1 h2

theorem key_comparator_parsed {a b : List Char} {ah bh : Nat}
    (ha : parseU64 ((splitCh a).headD []) = some ah)
    (hb : parseU64 ((splitCh b).headD []) = some bh) :
    key_comparator a b =
      if ah = bh then listCmp strCmp (splitCh a).tail (splitCh b).tail
      else natCmp ah bh := by
  simp only [key_comparator, ha, hb]

theorem key_comparator_fallback_left {a b : List Char}
    (ha : parseU64 ((splitCh a).headD []) = none) :
    key_comparator a b = strCmp a b := by
  simp only [key_comparator, ha]

theorem key_comparator_fallback_right {a b : List Char}
    (hb : parseU64 ((splitCh b).headD []) = none) :
    key_comparator a b = strCmp a b := by
  simp only [key_comparator, hb]
  cases ha : parseU64 ((splitCh a).headD []) <;> rfl

/-- C2: for block heights `h1 < h2` (bounded by `2 ^ 64` as `u64` values,
regardless of digit count) and arbitrary suffix paths, the comparator puts
the key with first segment `h1` strictly before the key with first segment
`h2`; on equal heights the keys compare by their remaining segment
sequences; in particular `"9/hash"` compares less than `"10/hash"`. -/
theorem keyCmp_height_order (h1 h2 : Nat) (s1 s2 : List Char) (hb : h2 < 2 ^ 64) :
    (h1 < h2 → key_comparator (natSeg h1 ++ '/' :: s1) (natSeg h2 ++ '/' :: s2) = .lt)
    ∧ (h1 < 2 ^ 64 →
        key_comparator (natSeg h1 ++ '/' :: s1) (natSeg h1 ++ '/' :: s2)
          = listCmp strCmp (splitCh s1) (splitCh s2))
    ∧ key_comparator "9/hash".data "10/hash".data = .lt := by
  refine ⟨?_, ?_, by decide⟩
  · intro hlt
    have p1 : parseU64 ((splitCh (natSeg h1 ++ '/' :: s1)).headD []) = some h1 := by
      rw [splitCh_natSeg]
      exact parseU64_natSeg (by omega)
    have p2 : parseU64 ((splitCh (natSeg h2 ++ '/' :: s2)).headD []) = some h2 := by
      rw [splitCh_natSeg]
      exact parseU64_natSeg hb
    rw [key_comparator_parsed p1 p2, if_neg (by omega)]
    exact natCmp_eq_lt.mpr hlt
  · intro hb1
    have p1 : parseU64 ((splitCh (natSeg h1 ++ '/' :: s1)).headD []) = some h1 := by
      rw [splitCh_natSeg]
      exact parseU64_natSeg hb1
    have p2 : parseU64 ((splitCh (natSeg h1 ++ '/' :: s2)).headD []) = some h1 := by
      rw [splitCh_natSeg]
      exact parseU64_natSeg hb1
    rw [key_comparator_parsed p1 p2, if_pos rfl, splitCh_natSeg, splitCh_natSeg]
    rfl

/-- Witness for C2 at `h1 = 9`, `h2 = 10`, suffix `hash`. -/
theorem keyCmp_height_order_witness :
    (10 : Nat) < 2 ^ 64 ∧ (9 : Nat) < 10
      ∧ key_comparator (natSeg 9 ++ '/' :: "hash".data) (natSeg 10 ++ '/' :: "hash".data)
          = .lt :=
  ⟨by omega, by omega,
    (keyCmp_height_order 9 10 "hash".data "hash".data (by omega)).1 (by omega)⟩

/-- C7 counterexample: the comparator is not transitive across the boundary
between keys whose first segment parses and keys whose first segment does
not: `9/a < 10/a` (numeric), `10/a < 5x` (string fallback), yet
`9/a > 5x` (string fallback), a strict cycle. -/
theorem keyCmp_not_transitive :
    key_comparator "9/a".data "10/a".data = .lt
    ∧ key_comparator "10/a".data "5x".data = .lt
    ∧ key_comparator "9/a".data "5x".data = .gt := by decide

/-- C7 amended: the comparator always yields exactly one `Ordering`, is
antisymmetric in the sense that swapping the arguments swaps the result,
and is transitive on keys whose first segment parses as `u64` as well as
on keys whose first segment does not; transitivity over the whole key
space fails (see the counterexample). -/
theorem keyCmp_amended :
    (∀ a b, key_comparator b a = (key_comparator a b).swap)
    ∧ (∀ a b c, firstSegParses a = true → firstSegParses b = true →
        firstSegParses c = true → key_comparator a b = .lt →
        key_comparator b c = .lt → key_comparator a c = .lt)
    ∧ (∀ a b c, firstSegParses a = false → firstSegParses b = false →
        firstSegParses c = false → key_comparator a b = .lt →
        key_comparator b c = .lt → key_comparator a c = .lt) := by
  refine ⟨?_, ?_, ?_⟩
  · intro a b
    cases ha : parseU64 ((splitCh a).headD []) with
    | none =>
      rw [key_comparator_fallback_right ha, key_comparator_fallback_left ha]
      exact strCmp_swap a b
    | some ah =>
      cases hb : parseU64 ((splitCh b).headD []) with
      | none =>
        rw [key_comparator_fallback_left hb, key_comparator_fallback_right hb]
        exact strCmp_swap a b
      | some bh =>
        rw [key_comparator_parsed hb ha, key_comparator_parsed ha hb]
        by_cases hh : ah = bh
        · rw [if_pos hh, if_pos hh.symm]
          exact listCmp_swap strCmp strCmp_swap _ _
        · rw [if_neg hh, if_neg (Ne.symm hh)]
          exact natCmp_swap ah bh
  · intro a b c hpa hpb hpc hab hbc
    simp only [firstSegParses, Option.isSome_iff_exists] at hpa hpb hpc
    obtain ⟨ah, ha⟩ := hpa
    obtain ⟨bh, hb⟩ := hpb
    obtain ⟨ch, hc⟩ := hpc
    rw [key_comparator_parsed ha hb] at hab
    rw [key_comparator_parsed hb hc] at hbc
    rw [key_comparator_parsed ha hc]
    by_cases h1 : ah = bh
    · rw [if_pos h1] at hab
      by_cases h2 : bh = ch
      · rw [if_pos h2] at hbc
        rw [if_pos (h1.trans h2)]
        exact listCmp_lt_trans strCmp (fun _ _ => strCmp_eq_eq)
          (fun _ _ _ => strCmp_lt_trans) _ _ _ hab hbc
      · rw [if_neg h2] at hbc
        rw [if_neg (h1 ▸ h2)]
        exact h1 ▸ hbc
    · rw [if_neg h1] at hab
      rw [natCmp_eq_lt] at hab
      by_cases h2 : bh = ch
      · subst h2
        rw [if_neg h1]
        exact natCmp_eq_lt.mpr hab
      · rw [if_neg h2, natCmp_eq_lt] at hbc
        rw [if_neg (by omega)]
        exact natCmp_eq_lt.mpr (by omega)
  · intro a b c hpa hpb _ hab hbc
    have hpa' : parseU64 ((splitCh a).headD []) = none := by
      cases h : parseU64 ((splitCh a).headD []) with
      | none => rfl
      | some v =>
        rw [firstSegParses, h] at hpa
        exact absurd hpa (by simp)
    have hpb' : parseU64 ((splitCh b).headD []) = none := by
      cases h : parseU64 ((splitCh b).headD []) with
      | none => rfl
      | some v =>
        rw [firstSegParses, h] at hpb
        exact absurd hpb (by simp)
    rw [key_comparator_fallback_left hpa'] at hab
    rw [key_comparator_fallback_left hpb'] at hbc
    rw [key_comparator_fallback_left hpa']
    exact strCmp_lt_trans hab hbc

/-- Witness for the amended C7 transitivity parts at concrete keys. -/
theorem keyCmp_amended_witness :
    (firstSegParses "1/a".data = true ∧ key_comparator "1/a".data "3/b".data = .lt)
    ∧ (firstSegParses "x".data = false ∧ key_comparator "x".data "z".data = .lt) :=
  ⟨⟨by decide, keyCmp_amended.2.1 "1/a".data "2/a".data "3/b".data
      (by decide) (by decide) (by decide) (by decide) (by decide)⟩,
    ⟨by decide, keyCmp_amended.2.2 "x".data "y".data "z".data
      (by decide) (by decide) (by decide) (by decide) (by decide)⟩⟩

/-- C8: whenever either byte-string operand is not valid UTF-8 the raw
comparator aborts instead of returning an ordering, and on valid UTF-8 it
returns the string comparator's result. -/
theorem keyCmpBytes_invalid_utf8 (a b : List Nat)
    (h : utf8Decode a = none ∨ utf8Decode b = none) :
    key_comparator_bytes a b = none
    ∧ ∀ x y, utf8Decode a = some x → utf8Decode b = some y →
        key_comparator_bytes a b = some (key_comparator x y) := by
  constructor
  · rcases h with h | h
    · simp only [key_comparator_bytes, h]
    · simp only [key_comparator_bytes, h]
      cases utf8Decode a <;> rfl
  · intro x y hx hy
    simp only [key_comparator_bytes, hx, hy]

/-- Witness for C8 at the non-UTF-8 byte `0xFF` against the valid key
`height`. -/
theorem keyCmpBytes_invalid_utf8_witness :
    utf8Decode [0xFF] = none ∧ key_comparator_bytes [0xFF] [0x68] = none :=
  ⟨by decide, (keyCmpBytes_invalid_utf8 [0xFF] [0x68] (Or.inl (by decide))).1⟩

theorem find?_filter_of_imp (m : List α) (pred q : α → Bool)
    (h : ∀ p, pred p = true → q p = true) :
    (m.filter q).find? pred = m.find? pred := by
  induction m with
  | nil => rfl
  | cons a m' ih =>
    by_cases hq : q a = true
    · rw [List.filter_cons_of_pos hq]
      by_cases hp : pred a = true
      · rw [List.find?_cons_of_pos _ hp, List.find?_cons_of_pos _ hp]
      · rw [List.find?_cons_of_neg _ (by simp_all), List.find?_cons_of_neg _ (by simp_all)]
        exact ih
    · rw [List.filter_cons_of_neg (by simp_all)]
      have hp : ¬pred a = true := fun hpa => hq (h a hpa)
      rw [List.find?_cons_of_neg _ (by simp_all)]
      exact ih

theorem aGet_aPut [DecidableEq κ] (m : List (κ × ν)) (k k' : κ) (v : ν) :
    aGet (aPut k v m) k' = if k' = k then some v else aGet m k' := by
  by_cases h : k' = k
  · subst h
    simp [aGet, aPut, List.find?_cons_of_pos]
  · rw [if_neg h]
    simp only [aGet, aPut]
    rw [List.find?_cons_of_neg _ (by simp [Ne.symm h])]
    rw [find?_filter_of_imp _ _ _ ?_]
    intro p hp
    simp only [decide_eq_true_eq] at hp
    simp [hp, h]

theorem aGet_eq_none_iff [DecidableEq κ] (m : List (κ × ν)) (k : κ) :
    aGet m k = none ↔ ∀ v, (k, v) ∉ m := by
  simp only [aGet, Option.map_eq_none', List.find?_eq_none, decide_eq_true_eq]
  constructor
  · intro h v hv
    exact h (k, v) hv rfl
  · intro h p hp hk
    cases p with
    | mk pk pv =>
      cases hk
      exact h pv hp

theorem leVal_leBytes : ∀ k n, n < 256 ^ k → leVal (leBytes k n) = n := by
  intro k
  induction k with
  | zero => intro n hn; interval_cases n; rfl
  | succ k ih =>
    intro n hn
    have hdiv : n / 256 < 256 ^ k := by
      rw [Nat.div_lt_iff_lt_mul (by omega)]
      calc n < 256 ^ (k + 1) := hn
        _ = 256 ^ k * 256 := by ring
    simp only [leBytes, leVal, ih (n / 256) hdiv]
    omega

theorem DB.read_eq (db : DB) (height addr : Nat) (column : List Char) :
    DB.read db height addr column =
      match aGet db (subspaceKey height addr column) with
      | some bytes => some bytes
      | none =>
        match prevHeight height with
        | some p => DB.read db p addr column
        | none => none := by
  cases height with
  | zero =>
    cases h : aGet db (subspaceKey 0 addr column) <;>
      simp [DB.read, prevHeight, h]
  | succ k =>
    cases h : aGet db (subspaceKey (k + 1) addr column) <;>
      simp [DB.read, prevHeight, h]

theorem natSeg_append_ne_cons {n : Nat} {s t : List Char} {c : Char}
    (hc : isDigitCh c = false) : natSeg n ++ s ≠ c :: t := by
  intro heq
  cases hns : natSeg n with
  | nil => exact absurd hns (natSeg_ne_nil n)
  | cons c0 t0 =>
    rw [hns] at heq
    have hc0 : isDigitCh c0 = true :=
      natSeg_all_digits n c0 (by rw [hns]; exact List.mem_cons_self c0 t0)
    have : c0 = c := (List.cons.inj heq).1
    rw [this] at hc0
    rw [hc0] at hc
    exact absurd hc (by simp)

theorem treeRootKey_ne_heightPtr (h : Nat) : treeRootKey h ≠ heightPtrKey :=
  natSeg_append_ne_cons (c := 'h') (by decide)

theorem treeStoreKey_ne_heightPtr (h : Nat) : treeStoreKey h ≠ heightPtrKey :=
  natSeg_append_ne_cons (c := 'h') (by decide)

theorem blockHashKey_ne_heightPtr (h : Nat) : blockHashKey h ≠ heightPtrKey :=
  natSeg_append_ne_cons (c := 'h') (by decide)

theorem subspaceKey_ne_heightPtr (h a : Nat) (c : List Char) :
    subspaceKey h a c ≠ heightPtrKey :=
  natSeg_append_ne_cons (c := 'h') (by decide)

theorem treeRootKey_ne_chainId (h : Nat) : treeRootKey h ≠ chainIdKey :=
  natSeg_append_ne_cons (c := 'c') (by decide)

theorem treeStoreKey_ne_chainId (h : Nat) : treeStoreKey h ≠ chainIdKey :=
  natSeg_append_ne_cons (c := 'c') (by decide)

theorem blockHashKey_ne_chainId (h : Nat) : blockHashKey h ≠ chainIdKey :=
  natSeg_append_ne_cons (c := 'c') (by decide)

theorem subspaceKey_ne_chainId (h a : Nat) (c : List Char) :
    subspaceKey h a c ≠ chainIdKey :=
  natSeg_append_ne_cons (c := 'c') (by decide)

theorem aGet_subspace_foldl_ne (ht : Nat) (l : SS) (db : DB) (k : StoreKey)
    (h : ∀ e ∈ l, subspaceKey ht e.1.1 e.1.2 ≠ k) :
    aGet (l.foldl (fun d e => aPut (subspaceKey ht e.1.1 e.1.2) e.2 d) db) k
      = aGet db k := by
  induction l generalizing db with
  | nil => rfl
  | cons e rest ih =>
    rw [List.foldl_cons]
    rw [ih _ fun e' he' => h e' (List.mem_cons_of_mem e he')]
    rw [aGet_aPut]
    rw [if_neg fun hk => h e (List.mem_cons_self e rest) hk.symm]

theorem aGet_blockBatch_fixed (t : MerkleTree) (hs : Bytes) (ht : Nat) (ss : SS)
    (db : DB) (k : StoreKey)
    (hk : k = heightPtrKey ∨ k = chainIdKey) :
    aGet (blockBatch t hs ht ss db) k = aGet db k := by
  have hr : treeRootKey ht ≠ k := by
    rcases hk with h | h <;> subst h
    · exact treeRootKey_ne_heightPtr ht
    · exact treeRootKey_ne_chainId ht
  have hst : treeStoreKey ht ≠ k := by
    rcases hk with h | h <;> subst h
    · exact treeStoreKey_ne_heightPtr ht
    · exact treeStoreKey_ne_chainId ht
  have hh : blockHashKey ht ≠ k := by
    rcases hk with h | h <;> subst h
    · exact blockHashKey_ne_heightPtr ht
    · exact blockHashKey_ne_chainId ht
  have hss : ∀ e ∈ ss, subspaceKey ht e.1.1 e.1.2 ≠ k := by
    intro e _
    rcases hk with h | h <;> subst h
    · exact subspaceKey_ne_heightPtr ht e.1.1 e.1.2
    · exact subspaceKey_ne_chainId ht e.1.1 e.1.2
  simp only [blockBatch]
  rw [aGet_subspace_foldl_ne ht ss _ k hss]
  rw [aGet_aPut, if_neg fun h => hh h.symm]
  rw [aGet_aPut, if_neg fun h => hst h.symm]
  rw [aGet_aPut, if_neg fun h => hr h.symm]

/-- C1: `DB::write_block` writes the global `height` pointer only after the
atomic batch succeeded: a failed batch write leaves the store (and hence
the pointer) untouched and returns the engine error; a successful batch
followed by a failed pointer write leaves the pointer at its previous value
yet still surfaces the engine error to the caller; only when both engine
writes succeed is the pointer moved to the new height's encoding. -/
theorem write_block_pointer_order (db : DB) (t : MerkleTree) (hs : Bytes)
    (ht : Nat) (ss : SS) :
    (∀ e p, write_block db t hs ht ss (some e) p = (db, .error (.RocksDBError e)))
    ∧ (∀ e, (write_block db t hs ht ss none (some e)).2 = .error (.RocksDBError e)
        ∧ aGet (write_block db t hs ht ss none (some e)).1 heightPtrKey
            = aGet db heightPtrKey)
    ∧ (write_block db t hs ht ss none none).2 = .ok ()
    ∧ aGet (write_block db t hs ht ss none none).1 heightPtrKey
        = some (heightEncode ht) := by
  refine ⟨fun e p => rfl, fun e => ⟨rfl, ?_⟩, rfl, ?_⟩
  · exact aGet_blockBatch_fixed t hs ht ss db heightPtrKey (Or.inl rfl)
  · simp only [write_block]
    rw [aGet_aPut, if_pos rfl]

theorem DB.read_prevHeight (db : DB) (height addr : Nat) (column : List Char)
    (habs : aGet db (subspaceKey height addr column) = none) :
    DB.read db height addr column =
      match prevHeight height with
      | some p => DB.read db p addr column
      | none => none := by
  rw [DB.read_eq, habs]

/-- C4: `DB::read` returns the value at the exact key when present, falls
back to the predecessor height when absent, returns `none` when absent with
no predecessor, and consequently, when a column was written only at heights
1 and 5, reading at 3 yields the height-1 value, reading at 5 yields the
height-5 value, and reading at 0 yields nothing. -/
theorem read_historical_fallback (db : DB) (a : Nat) (c : List Char) :
    (∀ h v, aGet db (subspaceKey h a c) = some v → DB.read db h a c = some v)
    ∧ (∀ h p, aGet db (subspaceKey h a c) = none → prevHeight h = some p →
        DB.read db h a c = DB.read db p a c)
    ∧ (∀ h, aGet db (subspaceKey h a c) = none → prevHeight h = none →
        DB.read db h a c = none)
    ∧ ∀ v1 v5,
        (∀ h, h ≤ 5 → aGet db (subspaceKey h a c)
            = if h = 1 then some v1 else if h = 5 then some v5 else none) →
        DB.read db 3 a c = some v1 ∧ DB.read db 5 a c = some v5
          ∧ DB.read db 0 a c = none := by
  refine ⟨?_, ?_, ?_, ?_⟩
  · intro h v hsome
    rw [DB.read_eq, hsome]
  · intro h p habs hp
    rw [DB.read_prevHeight db h a c habs, hp]
  · intro h habs hp
    rw [DB.read_prevHeight db h a c habs, hp]
  · intro v1 v5 hw
    have h0 : aGet db (subspaceKey 0 a c) = none := by
      rw [hw 0 (by omega)]
      norm_num
    have h1 : aGet db (subspaceKey 1 a c) = some v1 := by
      rw [hw 1 (by omega)]
      norm_num
    have h2 : aGet db (subspaceKey 2 a c) = none := by
      rw [hw 2 (by omega)]
      norm_num
    have h3 : aGet db (subspaceKey 3 a c) = none := by
      rw [hw 3 (by omega)]
      norm_num
    have h5 : aGet db (subspaceKey 5 a c) = some v5 := by
      rw [hw 5 (by omega)]
      norm_num
    refine ⟨?_, ?_, ?_⟩
    · rw [DB.read_eq, h3, show prevHeight 3 = some 2 from rfl]
      show DB.read db 2 a c = some v1
      rw [DB.read_eq, h2, show prevHeight 2 = some 1 from rfl]
      show DB.read db 1 a c = some v1
      rw [DB.read_eq, h1]
    · rw [DB.read_eq, h5]
    · rw [DB.read_eq, h0, show prevHeight 0 = none from rfl]

/-- Witness for C4 on a two-entry store with writes at heights 1 and 5. -/
theorem read_historical_fallback_witness :
    DB.read [(subspaceKey 1 7 "c".data, [1]), (subspaceKey 5 7 "c".data, [5])]
        3 7 "c".data = some [1]
    ∧ DB.read [(subspaceKey 1 7 "c".data, [1]), (subspaceKey 5 7 "c".data, [5])]
        5 7 "c".data = some [5]
    ∧ DB.read [(subspaceKey 1 7 "c".data, [1]), (subspaceKey 5 7 "c".data, [5])]
        0 7 "c".data = none :=
  (read_historical_fallback
      [(subspaceKey 1 7 "c".data, [1]), (subspaceKey 5 7 "c".data, [5])]
      7 "c".data).2.2.2 [1] [5] (by decide)

/-- C5 counterexample: the key `1/hash/x` matches none of the four
documented shapes, yet `read_last_block` does not fail with an unknown-key
error; the classifier dispatches on the second segment only, so the key is
consumed as a `hash` entry (its value `[5]` even overwrites the real block
hash `[4]` that sorts just before it). -/
theorem read_last_block_accepts_hash_suffix :
    read_last_block dbHashSuffix
      = .ok (some ("A".data, ⟨[2], [3]⟩, [5], 1, [])) := by
  rfl

theorem scanEntry_unknown (st : ScanState) (k : StoreKey) (v : Bytes)
    (hbad : shapeOk k = false) :
    scanEntry st (k, v) = .error (.UnknownKey k) := by
  simp only [scanEntry, shapeOk] at hbad ⊢
  cases h1 : (splitCh k).get? 1 with
  | none => rfl
  | some seg =>
    rw [h1] at hbad
    simp only [] at hbad ⊢
    by_cases ht : seg = "tree".data
    · rw [if_pos ht] at hbad ⊢
      cases h2 : (splitCh k).get? 2 with
      | none => rfl
      | some smt =>
        rw [h2] at hbad
        simp only [] at hbad ⊢
        simp only [Bool.or_eq_false_iff, decide_eq_false_iff_not] at hbad
        rw [if_neg hbad.1, if_neg hbad.2]
    · rw [if_neg ht] at hbad ⊢
      by_cases hh : seg = "hash".data
      · rw [hh] at hbad
        simp at hbad
      · rw [if_neg hh] at hbad ⊢
        by_cases hs : seg = "subspace".data
        · rw [if_pos hs] at hbad ⊢
          cases h2 : (splitCh k).get? 2 with
          | none => rfl
          | some addrSeg =>
            rw [h2] at hbad
            simp at hbad
        · rw [if_neg hs]

theorem scanEntry_ok (st : ScanState) (k : StoreKey) (v : Bytes)
    (hok : entryOk k = true) :
    ∃ st', scanEntry st (k, v) = .ok st' := by
  simp only [entryOk, Bool.and_eq_true] at hok
  obtain ⟨hshape, hside⟩ := hok
  simp only [shapeOk] at hshape
  simp only [scanEntry]
  cases h1 : (splitCh k).get? 1 with
  | none => rw [h1] at hshape; simp at hshape
  | some seg =>
    rw [h1] at hshape hside
    simp only [] at hshape hside ⊢
    by_cases ht : seg = "tree".data
    · rw [if_pos ht] at hshape ⊢
      cases h2 : (splitCh k).get? 2 with
      | none => rw [h2] at hshape; simp at hshape
      | some smt =>
        rw [h2] at hshape
        simp only [] at hshape ⊢
        simp only [Bool.or_eq_true, decide_eq_true_eq] at hshape
        rcases hshape with h | h
        · rw [if_pos h]
          exact ⟨_, rfl⟩
        · by_cases hr : smt = "root".data
          · rw [if_pos hr]
            exact ⟨_, rfl⟩
          · rw [if_neg hr, if_pos h]
            exact ⟨_, rfl⟩
    · rw [if_neg ht] at hshape ⊢
      by_cases hh : seg = "hash".data
      · rw [if_pos hh]
        exact ⟨_, rfl⟩
      · rw [if_neg hh] at hshape ⊢
        by_cases hs : seg = "subspace".data
        · rw [if_pos hs] at hshape ⊢
          cases h2 : (splitCh k).get? 2 with
          | none => rw [h2] at hshape; simp at hshape
          | some addrSeg =>
            rw [h2] at hside
            simp only [] at hside ⊢
            rw [if_pos hs] at hside
            cases ha : addrFromSeg addrSeg with
            | none => rw [ha] at hside; simp at hside
            | some addr => exact ⟨_, rfl⟩
        · rw [if_neg hs] at hshape
          simp at hshape

theorem runScan_error_at (pre : List (StoreKey × Bytes)) (k : StoreKey) (v : Bytes)
    (post : List (StoreKey × Bytes)) (st : ScanState)
    (hpre : ∀ e ∈ pre, entryOk e.1 = true) (hbad : shapeOk k = false) :
    runScan st (pre ++ (k, v) :: post) = .error (.UnknownKey k) := by
  induction pre generalizing st with
  | nil =>
    simp only [List.nil_append, runScan, scanEntry_unknown st k v hbad]
  | cons e rest ih =>
    obtain ⟨st', hst'⟩ :=
      scanEntry_ok st e.1 e.2 (hpre e (List.mem_cons_self e rest))
    simp only [List.cons_append, runScan]
    rw [show (e.1, e.2) = e by rfl] at hst'
    rw [hst']
    exact ih st' fun e' he' => hpre e' (List.mem_cons_of_mem e he')

/-- C5 amended: during the scan, every key whose second segment is not one
of `tree`/`hash`/`subspace`, or whose second segment is `tree` with a third
segment other than `root`/`store` (or missing), or `subspace` with no third
segment, makes `read_last_block` fail with an unknown-key error naming that
exact key, aborting at that key regardless of what follows; keys that
merely carry extra trailing segments after a recognised prefix (such as
`h/hash/x`) are instead consumed as that recognised shape. -/
theorem read_last_block_unknown_key (db : DB) (cidB hB : Bytes)
    (pre post : List (StoreKey × Bytes)) (k : StoreKey) (v : Bytes)
    (hcid : aGet db chainIdKey = some cidB)
    (hh : aGet db heightPtrKey = some hB)
    (hscan : scanRange db (natSeg (heightDecode hB) ++ ['/'])
        (natSeg (heightDecode hB + 1) ++ ['/']) = pre ++ (k, v) :: post)
    (hpre : ∀ e ∈ pre, entryOk e.1 = true)
    (hbad : shapeOk k = false) :
    read_last_block db = .error (.UnknownKey k) := by
  simp only [read_last_block, hcid, hh, hscan,
    runScan_error_at pre k v post _ hpre hbad]

/-- Witness for the amended C5 on a store whose height range holds the
single malformed key `1/bogus`. -/
theorem read_last_block_unknown_key_witness :
    read_last_block
        [(chainIdKey, strEncode "A".data), (heightPtrKey, heightEncode 1),
          ("1/bogus".data, [9])]
      = .error (.UnknownKey "1/bogus".data) :=
  read_last_block_unknown_key
    [(chainIdKey, strEncode "A".data), (heightPtrKey, heightEncode 1),
      ("1/bogus".data, [9])]
    (strEncode "A".data) (heightEncode 1) [] [] "1/bogus".data [9]
    rfl rfl (by rfl) (by intro e he; cases he) rfl

theorem scanEntry_fields (st st' : ScanState) (k : StoreKey) (v : Bytes)
    (h : scanEntry st (k, v) = .ok st') :
    (setsRoot k = false → st'.root = st.root)
    ∧ (setsStore k = false → st'.store = st.store)
    ∧ (setsHash k = false → st'.hash = st.hash) := by
  simp only [scanEntry] at h
  simp only [setsRoot, setsStore, setsHash]
  cases h1 : (splitCh k).get? 1 with
  | none => rw [h1] at h; exact absurd h (by simp)
  | some seg =>
    rw [h1] at h
    simp only [] at h
    simp only [h1, Option.some.injEq]
    by_cases ht : seg = "tree".data
    · rw [if_pos ht] at h
      cases h2 : (splitCh k).get? 2 with
      | none => rw [h2] at h; exact absurd h (by simp)
      | some smt =>
        rw [h2] at h
        simp only [] at h
        simp only [h2, Option.some.injEq]
        by_cases hr : smt = "root".data
        · rw [if_pos hr] at h
          cases h
          refine ⟨fun hf => ?_, fun _ => rfl, fun _ => rfl⟩
          rw [ht, hr] at hf
          simp at hf
        · rw [if_neg hr] at h
          by_cases hs : smt = "store".data
          · rw [if_pos hs] at h
            cases h
            refine ⟨fun _ => rfl, fun hf => ?_, fun _ => rfl⟩
            rw [ht, hs] at hf
            simp at hf
          · rw [if_neg hs] at h
            exact absurd h (by simp)
    · rw [if_neg ht] at h
      by_cases hh : seg = "hash".data
      · rw [if_pos hh] at h
        cases h
        refine ⟨fun _ => rfl, fun _ => rfl, fun hf => ?_⟩
        rw [hh] at hf
        simp at hf
      · rw [if_neg hh] at h
        by_cases hs : seg = "subspace".data
        · rw [if_pos hs] at h
          cases h2 : (splitCh k).get? 2 with
          | none => rw [h2] at h; exact absurd h (by simp)
          | some addrSeg =>
            rw [h2] at h
            simp only [] at h
            cases ha : addrFromSeg addrSeg with
            | none => rw [ha] at h; exact absurd h (by simp)
            | some addr =>
              rw [ha] at h
              cases h
              exact ⟨fun _ => rfl, fun _ => rfl, fun _ => rfl⟩
        · rw [if_neg hs] at h
          exact absurd h (by simp)

theorem runScan_root_none (L : List (StoreKey × Bytes)) (st0 st : ScanState)
    (hscan : runScan st0 L = .ok st) (hall : ∀ e ∈ L, setsRoot e.1 = false) :
    st.root = st0.root := by
  induction L generalizing st0 with
  | nil => cases hscan; rfl
  | cons e rest ih =>
    simp only [runScan] at hscan
    cases hse : scanEntry st0 e with
    | error err => rw [hse] at hscan; exact absurd hscan (by simp)
    | ok st1 =>
      rw [hse] at hscan
      have h1 : st1.root = st0.root :=
        (scanEntry_fields st0 st1 e.1 e.2 (by rw [show (e.1, e.2) = e from rfl]; exact hse)).1
          (hall e (List.mem_cons_self e rest))
      rw [ih st1 hscan fun e' he' => hall e' (List.mem_cons_of_mem e he'), h1]

theorem runScan_store_none (L : List (StoreKey × Bytes)) (st0 st : ScanState)
    (hscan : runScan st0 L = .ok st) (hall : ∀ e ∈ L, setsStore e.1 = false) :
    st.store = st0.store := by
  induction L generalizing st0 with
  | nil => cases hscan; rfl
  | cons e rest ih =>
    simp only [runScan] at hscan
    cases hse : scanEntry st0 e with
    | error err => rw [hse] at hscan; exact absurd hscan (by simp)
    | ok st1 =>
      rw [hse] at hscan
      have h1 : st1.store = st0.store :=
        (scanEntry_fields st0 st1 e.1 e.2 (by rw [show (e.1, e.2) = e from rfl]; exact hse)).2.1
          (hall e (List.mem_cons_self e rest))
      rw [ih st1 hscan fun e' he' => hall e' (List.mem_cons_of_mem e he'), h1]

theorem runScan_hash_none (L : List (StoreKey × Bytes)) (st0 st : ScanState)
    (hscan : runScan st0 L = .ok st) (hall : ∀ e ∈ L, setsHash e.1 = false) :
    st.hash = st0.hash := by
  induction L generalizing st0 with
  | nil => cases hscan; rfl
  | cons e rest ih =>
    simp only [runScan] at hscan
    cases hse : scanEntry st0 e with
    | error err => rw [hse] at hscan; exact absurd hscan (by simp)
    | ok st1 =>
      rw [hse] at hscan
      have h1 : st1.hash = st0.hash :=
        (scanEntry_fields st0 st1 e.1 e.2 (by rw [show (e.1, e.2) = e from rfl]; exact hse)).2.2
          (hall e (List.mem_cons_self e rest))
      rw [ih st1 hscan fun e' he' => hall e' (List.mem_cons_of_mem e he'), h1]

/-- C6: when the scan of the latest height's range finishes without an
unknown-key error but no scanned key recorded the Merkle root, the Merkle
store, or the block hash, `read_last_block` fails with the essential-data
error instead of returning a partially reconstructed block. -/
theorem read_last_block_essential_missing (db : DB) (cidB hB : Bytes)
    (st : ScanState)
    (hcid : aGet db chainIdKey = some cidB)
    (hh : aGet db heightPtrKey = some hB)
    (hscan : runScan ⟨none, none, none, []⟩
        (scanRange db (natSeg (heightDecode hB) ++ ['/'])
          (natSeg (heightDecode hB + 1) ++ ['/'])) = .ok st)
    (hmiss :
      (∀ e ∈ scanRange db (natSeg (heightDecode hB) ++ ['/'])
          (natSeg (heightDecode hB + 1) ++ ['/']), setsRoot e.1 = false)
      ∨ (∀ e ∈ scanRange db (natSeg (heightDecode hB) ++ ['/'])
          (natSeg (heightDecode hB + 1) ++ ['/']), setsStore e.1 = false)
      ∨ (∀ e ∈ scanRange db (natSeg (heightDecode hB) ++ ['/'])
          (natSeg (heightDecode hB + 1) ++ ['/']), setsHash e.1 = false)) :
    read_last_block db
      = .error (.Temporary "Essential data couldn\x27t be read from the DB") := by
  simp only [read_last_block, hcid, hh, hscan]
  rcases hmiss with hm | hm | hm
  · have h0 : st.root = none := runScan_root_none _ _ _ hscan hm
    rw [h0]
  · have h0 : st.store = none := runScan_store_none _ _ _ hscan hm
    rw [h0]
    first
    | rfl
    | (cases st.root <;> rfl)
  · have h0 : st.hash = none := runScan_hash_none _ _ _ hscan hm
    rw [h0]
    first
    | rfl
    | (cases st.root <;> cases st.store <;> rfl)

/-- Witness for C6 on a store whose height 1 holds only the `hash` key. -/
theorem read_last_block_essential_missing_witness :
    read_last_block
        [(chainIdKey, strEncode "A".data), (heightPtrKey, heightEncode 1),
          (blockHashKey 1, [7])]
      = .error (.Temporary "Essential data couldn\x27t be read from the DB") :=
  read_last_block_essential_missing
    [(chainIdKey, strEncode "A".data), (heightPtrKey, heightEncode 1),
      (blockHashKey 1, [7])]
    (strEncode "A".data) (heightEncode 1)
    ⟨none, none, some [7], []⟩ rfl rfl (by rfl) (Or.inl (by decide))

theorem splitCh_treeRootKey (h : Nat) :
    splitCh (treeRootKey h) = [natSeg h, "tree".data, "root".data] := by
  rw [treeRootKey, splitCh_natSeg]
  rw [show splitCh "tree/root".data = ["tree".data, "root".data] by decide]

theorem splitCh_treeStoreKey (h : Nat) :
    splitCh (treeStoreKey h) = [natSeg h, "tree".data, "store".data] := by
  rw [treeStoreKey, splitCh_natSeg]
  rw [show splitCh "tree/store".data = ["tree".data, "store".data] by decide]

theorem splitCh_blockHashKey (h : Nat) :
    splitCh (blockHashKey h) = [natSeg h, "hash".data] := by
  rw [blockHashKey, splitCh_natSeg]
  rw [show splitCh "hash".data = ["hash".data] by decide]

theorem splitCh_subspaceKey (h a : Nat) (c : List Char) :
    splitCh (subspaceKey h a c)
      = natSeg h :: "subspace".data :: natSeg a :: splitCh c := by
  rw [subspaceKey, splitCh_natSeg]
  rw [splitCh_append "subspace".data _ (by decide)]
  rw [splitCh_append (natSeg a) _
    fun d hd => digit_ne_slash (natSeg_all_digits a d hd)]

theorem treeRootKey_inj {h h' : Nat} (he : treeRootKey h = treeRootKey h') :
    h = h' := by
  have := congrArg splitCh he
  rw [splitCh_treeRootKey, splitCh_treeRootKey] at this
  exact natSeg_inj (List.cons.inj this).1

theorem treeStoreKey_inj {h h' : Nat} (he : treeStoreKey h = treeStoreKey h') :
    h = h' := by
  have := congrArg splitCh he
  rw [splitCh_treeStoreKey, splitCh_treeStoreKey] at this
  exact natSeg_inj (List.cons.inj this).1

theorem blockHashKey_inj {h h' : Nat} (he : blockHashKey h = blockHashKey h') :
    h = h' := by
  have := congrArg splitCh he
  rw [splitCh_blockHashKey, splitCh_blockHashKey] at this
  exact natSeg_inj (List.cons.inj this).1

theorem subspaceKey_inj {h h' a a' : Nat} {c c' : List Char}
    (he : subspaceKey h a c = subspaceKey h' a' c') :
    h = h' ∧ a = a' ∧ c = c' := by
  have hs := congrArg splitCh he
  rw [splitCh_subspaceKey, splitCh_subspaceKey] at hs
  obtain ⟨h1, hs⟩ := List.cons.inj hs
  obtain ⟨-, hs⟩ := List.cons.inj hs
  obtain ⟨h2, hs⟩ := List.cons.inj hs
  refine ⟨natSeg_inj h1, natSeg_inj h2, ?_⟩
  have := congrArg joinCh hs
  rwa [joinCh_splitCh, joinCh_splitCh] at this

theorem treeRootKey_ne_treeStoreKey (h h' : Nat) :
    treeRootKey h ≠ treeStoreKey h' := by
  intro he
  have := congrArg splitCh he
  rw [splitCh_treeRootKey, splitCh_treeStoreKey] at this
  obtain ⟨-, this⟩ := List.cons.inj this
  obtain ⟨-, this⟩ := List.cons.inj this
  exact absurd (List.cons.inj this).1 (by decide)

theorem treeRootKey_ne_blockHashKey (h h' : Nat) :
    treeRootKey h ≠ blockHashKey h' := by
  intro he
  have := congrArg splitCh he
  rw [splitCh_treeRootKey, splitCh_blockHashKey] at this
  obtain ⟨-, this⟩ := List.cons.inj this
  exact absurd (List.cons.inj this).1 (by decide)

theorem treeRootKey_ne_subspaceKey (h h' a : Nat) (c : List Char) :
    treeRootKey h ≠ subspaceKey h' a c := by
  intro he
  have := congrArg splitCh he
  rw [splitCh_treeRootKey, splitCh_subspaceKey] at this
  obtain ⟨-, this⟩ := List.cons.inj this
  exact absurd (List.cons.inj this).1 (by decide)

theorem treeStoreKey_ne_blockHashKey (h h' : Nat) :
    treeStoreKey h ≠ blockHashKey h' := by
  intro he
  have := congrArg splitCh he
  rw [splitCh_treeStoreKey, splitCh_blockHashKey] at this
  obtain ⟨-, this⟩ := List.cons.inj this
  exact absurd (List.cons.inj this).1 (by decide)

theorem treeStoreKey_ne_subspaceKey (h h' a : Nat) (c : List Char) :
    treeStoreKey h ≠ subspaceKey h' a c := by
  intro he
  have := congrArg splitCh he
  rw [splitCh_treeStoreKey, splitCh_subspaceKey] at this
  obtain ⟨-, this⟩ := List.cons.inj this
  exact absurd (List.cons.inj this).1 (by decide)

theorem blockHashKey_ne_subspaceKey (h h' a : Nat) (c : List Char) :
    blockHashKey h ≠ subspaceKey h' a c := by
  intro he
  have := congrArg splitCh he
  rw [splitCh_blockHashKey, splitCh_subspaceKey] at this
  obtain ⟨-, this⟩ := List.cons.inj this
  exact absurd (List.cons.inj this).1 (by decide)

theorem natCmp_eq_gt {m n : Nat} : natCmp m n = .gt ↔ n < m := by
  unfold natCmp
  split_ifs <;> simp_all <;> omega

theorem listCmp_cons_gt (cmp : α → α → Ordering) (a b : α) (as bs : List α)
    (h : cmp a b = .gt) : listCmp cmp (a :: as) (b :: bs) = .gt := by
  simp [listCmp, h]

theorem listCmp_cons_nil (cmp : α → α → Ordering) (a : α) (as : List α) :
    listCmp cmp (a :: as) [] = .gt := rfl

theorem digit_toNat {c : Char} (h : isDigitCh c = true) :
    48 ≤ c.toNat ∧ c.toNat ≤ 57 := by
  simp only [isDigitCh, Bool.and_eq_true, decide_eq_true_eq] at h
  exact h

theorem natSeg_head (n : Nat) :
    ∃ c t, natSeg n = c :: t ∧ isDigitCh c = true := by
  cases hh : natSeg n with
  | nil => exact absurd hh (natSeg_ne_nil n)
  | cons c t =>
    exact ⟨c, t, rfl, natSeg_all_digits n c (by rw [hh]; exact List.mem_cons_self c t)⟩

theorem splitCh_heightBound (H : Nat) :
    splitCh (natSeg H ++ ['/']) = [natSeg H, []] := by
  rw [show (['/'] : List Char) = '/' :: [] from rfl,
    splitCh_append _ _ fun d hd => digit_ne_slash (natSeg_all_digits H d hd)]
  rfl

theorem keyCmp_heightKey_vs_bound (H' H : Nat) (hH' : H' < 2 ^ 64)
    (hH : H < 2 ^ 64) (s : List Char) :
    key_comparator (natSeg H' ++ '/' :: s) (natSeg H ++ ['/'])
      = if H' = H then listCmp strCmp (splitCh s) [[]] else natCmp H' H := by
  have p1 : parseU64 ((splitCh (natSeg H' ++ '/' :: s)).headD []) = some H' := by
    rw [splitCh_natSeg]
    exact parseU64_natSeg hH'
  have p2 : parseU64 ((splitCh (natSeg H ++ ['/'])).headD []) = some H := by
    rw [splitCh_heightBound]
    exact parseU64_natSeg hH
  rw [key_comparator_parsed p1 p2, splitCh_natSeg, splitCh_heightBound]
  rfl

theorem inScanRange_canonical_true (H : Nat) (hH1 : H + 1 < 2 ^ 64)
    (s : List Char) (c0 : Char) (s0 : List Char) (segs : List (List Char))
    (hsp : splitCh s = (c0 :: s0) :: segs) :
    inScanRange (natSeg H ++ ['/']) (natSeg (H + 1) ++ ['/'])
      (natSeg H ++ '/' :: s) = true := by
  have h1 : key_comparator (natSeg H ++ '/' :: s) (natSeg H ++ ['/']) = .gt := by
    rw [keyCmp_heightKey_vs_bound H H (by omega) (by omega), if_pos rfl, hsp]
    exact listCmp_cons_gt _ _ _ _ _ (listCmp_cons_nil _ _ _)
  have h2 : key_comparator (natSeg H ++ '/' :: s) (natSeg (H + 1) ++ ['/']) = .lt := by
    rw [keyCmp_heightKey_vs_bound H (H + 1) (by omega) hH1, if_neg (by omega)]
    exact natCmp_eq_lt.mpr (by omega)
  simp [inScanRange, h1, h2]

theorem inScanRange_canonical_false (H H' : Nat) (hH1 : H + 1 < 2 ^ 64)
    (hH' : H' < 2 ^ 64) (hne : H' ≠ H)
    (s : List Char) (c0 : Char) (s0 : List Char) (segs : List (List Char))
    (hsp : splitCh s = (c0 :: s0) :: segs) :
    inScanRange (natSeg H ++ ['/']) (natSeg (H + 1) ++ ['/'])
      (natSeg H' ++ '/' :: s) = false := by
  by_cases hlt : H' < H
  · have h1 : key_comparator (natSeg H' ++ '/' :: s) (natSeg H ++ ['/']) = .lt := by
      rw [keyCmp_heightKey_vs_bound H' H hH' (by omega), if_neg hne]
      exact natCmp_eq_lt.mpr hlt
    simp [inScanRange, h1]
  · have hgt : H < H' := by omega
    have h2 : key_comparator (natSeg H' ++ '/' :: s) (natSeg (H + 1) ++ ['/']) ≠ .lt := by
      rw [keyCmp_heightKey_vs_bound H' (H + 1) hH' hH1]
      by_cases he : H' = H + 1
      · rw [if_pos he, hsp]
        have hg : listCmp strCmp ((c0 :: s0) :: segs) [[]] = .gt :=
          listCmp_cons_gt strCmp _ _ _ _ (listCmp_cons_nil charCmp c0 s0)
        rw [hg]
        simp
      · rw [if_neg he]
        rw [natCmp_eq_gt.mpr (by omega)]
        simp
    simp only [inScanRange, Bool.and_eq_false_iff, decide_eq_false_iff_not]
    right
    exact h2

theorem strCmp_letter_gt_digitKey (c0 : Char) (t : List Char) (H : Nat)
    (hc : 57 < c0.toNat) :
    strCmp (c0 :: t) (natSeg H ++ ['/']) = .gt := by
  obtain ⟨d, dt, hd, hdig⟩ := natSeg_head H
  have : natSeg H ++ ['/'] = d :: (dt ++ ['/']) := by rw [hd]; rfl
  rw [this]
  refine listCmp_cons_gt _ _ _ _ _ ?_
  unfold charCmp
  exact natCmp_eq_gt.mpr (by have := (digit_toNat hdig).2; omega)

theorem inScanRange_chainId_false (H : Nat) :
    inScanRange (natSeg H ++ ['/']) (natSeg (H + 1) ++ ['/']) chainIdKey = false := by
  have hp : parseU64 ((splitCh chainIdKey).headD []) = none := by decide
  have h2 : key_comparator chainIdKey (natSeg (H + 1) ++ ['/']) = .gt := by
    rw [key_comparator_fallback_left hp]
    exact strCmp_letter_gt_digitKey 'c' "hain_id".data (H + 1) (by decide)
  simp only [inScanRange, Bool.and_eq_false_iff, decide_eq_false_iff_not]
  right
  rw [h2]
  simp

theorem inScanRange_heightPtr_false (H : Nat) :
    inScanRange (natSeg H ++ ['/']) (natSeg (H + 1) ++ ['/']) heightPtrKey = false := by
  have hp : parseU64 ((splitCh heightPtrKey).headD []) = none := by decide
  have h2 : key_comparator heightPtrKey (natSeg (H + 1) ++ ['/']) = .gt := by
    rw [key_comparator_fallback_left hp]
    exact strCmp_letter_gt_digitKey 'h' "eight".data (H + 1) (by decide)
  simp only [inScanRange, Bool.and_eq_false_iff, decide_eq_false_iff_not]
  right
  rw [h2]
  simp

theorem mem_aPut [DecidableEq κ] {p : κ × ν} {k : κ} {v : ν} {m : List (κ × ν)}
    (h : p ∈ aPut k v m) : p = (k, v) ∨ p ∈ m := by
  simp only [aPut, List.mem_cons] at h
  rcases h with h | h
  · exact Or.inl h
  · exact Or.inr (List.mem_of_mem_filter h)

theorem nodupKeys_aPut [DecidableEq κ] {m : List (κ × ν)} (k : κ) (v : ν)
    (h : (m.map Prod.fst).Nodup) : ((aPut k v m).map Prod.fst).Nodup := by
  simp only [aPut, List.map_cons, List.nodup_cons]
  constructor
  · intro hk
    obtain ⟨p, hp, hpk⟩ := List.mem_map.mp hk
    have := List.of_mem_filter hp
    simp only [Bool.not_eq_true', decide_eq_false_iff_not] at this
    exact this hpk
  · exact List.Nodup.sublist ((List.filter_sublist m).map Prod.fst) h

theorem insertSorted_perm (p : StoreKey × Bytes) (l : List (StoreKey × Bytes)) :
    (insertSorted p l).Perm (p :: l) := by
  induction l with
  | nil => exact List.Perm.refl _
  | cons q rest ih =>
    simp only [insertSorted]
    split
    · exact ((ih.cons q).trans (List.Perm.swap p q rest))
    · exact List.Perm.refl _

theorem sortByKey_perm (l : List (StoreKey × Bytes)) : (sortByKey l).Perm l := by
  induction l with
  | nil => exact List.Perm.refl _
  | cons e rest ih =>
    exact (insertSorted_perm e (sortByKey rest)).trans (ih.cons e)

theorem aGet_eq_some_of_mem [DecidableEq κ] {m : List (κ × ν)} {k : κ} {v : ν}
    (hnd : (m.map Prod.fst).Nodup) (hm : (k, v) ∈ m) : aGet m k = some v := by
  induction m with
  | nil => cases hm
  | cons p rest ih =>
    simp only [List.map_cons, List.nodup_cons] at hnd
    rcases List.mem_cons.mp hm with h | h
    · subst h
      simp [aGet, List.find?_cons_of_pos]
    · by_cases hk : p.1 = k
      · exfalso
        apply hnd.1
        rw [hk]
        exact List.mem_map.mpr ⟨(k, v), h, rfl⟩
      · simp only [aGet]
        rw [List.find?_cons_of_neg _ (by simp [hk])]
        exact ih hnd.2 h

theorem aGet_some_imp_mem [DecidableEq κ] {m : List (κ × ν)} {k : κ} {v : ν}
    (h : aGet m k = some v) : (k, v) ∈ m := by
  simp only [aGet, Option.map_eq_some'] at h
  obtain ⟨p, hp, hv⟩ := h
  have hk := List.find?_some hp
  simp only [decide_eq_true_eq] at hk
  have := List.mem_of_find?_eq_some hp
  cases p with
  | mk a b =>
    cases hk
    cases hv
    exact this

theorem aGet_congr_perm [DecidableEq κ] {m m' : List (κ × ν)}
    (hperm : m.Perm m') (hnd : (m.map Prod.fst).Nodup) (k : κ) :
    aGet m k = aGet m' k := by
  have hnd' : (m'.map Prod.fst).Nodup := ((hperm.map Prod.fst).nodup_iff).mp hnd
  cases h : aGet m k with
  | some v =>
    exact (aGet_eq_some_of_mem hnd' (hperm.mem_iff.mp (aGet_some_imp_mem h))).symm
  | none =>
    cases h' : aGet m' k with
    | none => rfl
    | some v =>
      rw [aGet_eq_none_iff] at h
      exact absurd (hperm.mem_iff.mpr (aGet_some_imp_mem h')) (h v)

theorem aGet_filter_key [DecidableEq κ] (m : List (κ × ν)) (q : κ → Bool) (k : κ) :
    aGet (m.filter fun p => q p.1) k = if q k = true then aGet m k else none := by
  induction m with
  | nil => simp [aGet]
  | cons p rest ih =>
    by_cases hq : q p.1 = true
    · rw [@List.filter_cons_of_pos _ (fun x : κ × ν => q x.1) p rest hq]
      by_cases hk : p.1 = k
      · subst hk
        simp [aGet, List.find?_cons_of_pos, hq]
      · simp only [aGet] at ih ⊢
        rw [List.find?_cons_of_neg _ (by simp [hk]),
          List.find?_cons_of_neg _ (by simp [hk])]
        exact ih
    · rw [@List.filter_cons_of_neg _ (fun x : κ × ν => q x.1) p rest (by simp_all)]
      by_cases hk : p.1 = k
      · subst hk
        rw [ih, if_neg hq]
        simp only [aGet]
        rw [List.find?_cons_of_pos _ (by simp)]
        rw [if_neg hq]
      · simp only [aGet] at ih ⊢
        rw [List.find?_cons_of_neg _ (by simp [hk])]
        exact ih

theorem nodupKeys_filter [DecidableEq κ] (m : List (κ × ν)) (q : κ × ν → Bool)
    (h : (m.map Prod.fst).Nodup) : ((m.filter q).map Prod.fst).Nodup :=
  List.Nodup.sublist ((List.filter_sublist m).map Prod.fst) h

theorem scanRange_aGet (db : DB) (lo hi : StoreKey) (k : StoreKey)
    (hnd : (db.map Prod.fst).Nodup) :
    aGet (scanRange db lo hi) k
      = if inScanRange lo hi k = true then aGet db k else none := by
  rw [show scanRange db lo hi = sortByKey (db.filter fun p => inScanRange lo hi p.1)
    from rfl]
  rw [← aGet_filter_key db (fun k => inScanRange lo hi k) k]
  exact aGet_congr_perm (sortByKey_perm _)
    (((sortByKey_perm _).map Prod.fst).nodup_iff.mpr
      (nodupKeys_filter db _ hnd)) k

theorem mem_scanRange {db : DB} {lo hi : StoreKey} {e : StoreKey × Bytes}
    (h : e ∈ scanRange db lo hi) : e ∈ db ∧ inScanRange lo hi e.1 = true := by
  have := (sortByKey_perm (db.filter fun p => inScanRange lo hi p.1)).mem_iff.mp h
  exact ⟨List.mem_of_mem_filter this, by simpa using List.of_mem_filter this⟩

theorem nodupKeys_scanRange (db : DB) (lo hi : StoreKey)
    (hnd : (db.map Prod.fst).Nodup) :
    ((scanRange db lo hi).map Prod.fst).Nodup :=
  ((sortByKey_perm _).map Prod.fst).nodup_iff.mpr (nodupKeys_filter db _ hnd)

theorem orElse_assoc (a b c : Option α) :
    (Option.orElse (Option.orElse a fun _ => b) fun _ => c)
      = Option.orElse a fun _ => Option.orElse b fun _ => c := by
  cases a <;> rfl

theorem find?_congr {l : List α} {p q : α → Bool}
    (h : ∀ x ∈ l, p x = q x) : l.find? p = l.find? q := by
  induction l with
  | nil => rfl
  | cons a rest ih =>
    have ha := h a (List.mem_cons_self a rest)
    by_cases hp : p a = true
    · rw [List.find?_cons_of_pos _ hp, List.find?_cons_of_pos _ (ha ▸ hp)]
    · rw [List.find?_cons_of_neg _ hp, List.find?_cons_of_neg _ (by rw [← ha]; exact hp)]
      exact ih fun x hx => h x (List.mem_cons_of_mem a hx)

theorem aGet_ss_foldl (ht : Nat) (ss : SS) (db0 : DB) (k : StoreKey) :
    aGet (ss.foldl (fun d e => aPut (subspaceKey ht e.1.1 e.1.2) e.2 d) db0) k
      = Option.orElse (ssGetK ht ss k) fun _ => aGet db0 k := by
  induction ss generalizing db0 with
  | nil => rfl
  | cons e rest ih =>
    rw [List.foldl_cons, ih]
    have hrev : (e :: rest).reverse = rest.reverse ++ [e] := by simp
    simp only [ssGetK, hrev, List.find?_append]
    rw [aGet_aPut]
    cases hr : rest.reverse.find? fun e => decide (subspaceKey ht e.1.1 e.1.2 = k) with
    | some p => rfl
    | none =>
      simp only [Option.orElse, Option.map]
      by_cases hk : subspaceKey ht e.1.1 e.1.2 = k
      · rw [List.find?_cons_of_pos _ (by simp [hk]), if_pos hk.symm]
        rfl
      · rw [List.find?_cons_of_neg _ (by simp [hk]), if_neg fun h => hk h.symm]
        rfl

theorem aGet_blockBatch (t : MerkleTree) (hsh : Bytes) (ht : Nat) (ss : SS)
    (db : DB) (k : StoreKey) :
    aGet (blockBatch t hsh ht ss db) k
      = Option.orElse (batchGet t hsh ht ss k) fun _ => aGet db k := by
  simp only [blockBatch]
  rw [aGet_ss_foldl, aGet_aPut, aGet_aPut, aGet_aPut]
  simp only [batchGet, ← orElse_assoc]
  cases hss : ssGetK ht ss k with
  | some v => rfl
  | none =>
    simp only [Option.orElse]
    split_ifs <;> rfl

theorem aGet_applyOp (db : DB) (op : Op) (k : StoreKey) :
    aGet (applyOp db op) k = Option.orElse (opGet op k) fun _ => aGet db k := by
  cases op with
  | writeBlock t hsh ht ss =>
    simp only [applyOp, write_block, opGet]
    rw [aGet_aPut, aGet_blockBatch]
    by_cases hk : k = heightPtrKey
    · rw [if_pos hk, if_pos hk]
      rfl
    · rw [if_neg hk, if_neg hk]
  | writeChainId cid =>
    simp only [applyOp, write_chain_id, opGet]
    rw [aGet_aPut]
    by_cases hk : k = chainIdKey
    · rw [if_pos hk, if_pos hk]
      rfl
    · rw [if_neg hk, if_neg hk]
      rfl

theorem aGet_applyOps (ops : List Op) :
    ∀ (db : DB) (k : StoreKey),
      aGet (applyOps db ops) k = Option.orElse (opsGet ops k) fun _ => aGet db k := by
  induction ops with
  | nil => intro db k; rfl
  | cons op rest ih =>
    intro db k
    show aGet (applyOps (applyOp db op) rest) k = _
    rw [ih, aGet_applyOp]
    simp only [opsGet, ← orElse_assoc]

theorem mem_ss_foldl {ht : Nat} {ss : SS} {db0 : DB} {p : StoreKey × Bytes}
    (h : p ∈ ss.foldl (fun d e => aPut (subspaceKey ht e.1.1 e.1.2) e.2 d) db0) :
    (∃ a c, p.1 = subspaceKey ht a c) ∨ p ∈ db0 := by
  induction ss generalizing db0 with
  | nil => exact Or.inr h
  | cons e rest ih =>
    rw [List.foldl_cons] at h
    rcases ih h with h' | h'
    · exact Or.inl h'
    · rcases mem_aPut h' with h'' | h''
      · exact Or.inl ⟨e.1.1, e.1.2, by rw [h'']⟩
      · exact Or.inr h''

theorem mem_blockBatch {t : MerkleTree} {hsh : Bytes} {ht : Nat} {ss : SS}
    {db : DB} {p : StoreKey × Bytes} (h : p ∈ blockBatch t hsh ht ss db) :
    (p.1 = treeRootKey ht ∨ p.1 = treeStoreKey ht ∨ p.1 = blockHashKey ht
      ∨ ∃ a c, p.1 = subspaceKey ht a c) ∨ p ∈ db := by
  simp only [blockBatch] at h
  rcases mem_ss_foldl h with h' | h'
  · exact Or.inl (Or.inr (Or.inr (Or.inr h')))
  rcases mem_aPut h' with h'' | h''
  · exact Or.inl (Or.inr (Or.inr (Or.inl (by rw [h'']))))
  rcases mem_aPut h'' with h3 | h3
  · exact Or.inl (Or.inr (Or.inl (by rw [h3])))
  rcases mem_aPut h3 with h4 | h4
  · exact Or.inl (Or.inl (by rw [h4]))
  · exact Or.inr h4

theorem mem_applyOp {db : DB} {op : Op} {p : StoreKey × Bytes}
    (h : p ∈ applyOp db op) : opKey op p.1 ∨ p ∈ db := by
  cases op with
  | writeBlock t hsh ht ss =>
    simp only [applyOp, write_block] at h
    rcases mem_aPut h with h' | h'
    · exact Or.inl (Or.inl (by rw [h']))
    · rcases mem_blockBatch h' with h'' | h''
      · exact Or.inl (Or.inr h'')
      · exact Or.inr h''
  | writeChainId cid =>
    simp only [applyOp, write_chain_id] at h
    rcases mem_aPut h with h' | h'
    · exact Or.inl (show p.1 = chainIdKey by rw [h'])
    · exact Or.inr h'

theorem mem_applyOps {ops : List Op} {db : DB} {p : StoreKey × Bytes}
    (h : p ∈ applyOps db ops) : (∃ op ∈ ops, opKey op p.1) ∨ p ∈ db := by
  induction ops generalizing db with
  | nil => exact Or.inr h
  | cons op rest ih =>
    rcases ih h with h' | h'
    · obtain ⟨op', hop', hk⟩ := h'
      exact Or.inl ⟨op', List.mem_cons_of_mem op hop', hk⟩
    · rcases mem_applyOp h' with h'' | h''
      · exact Or.inl ⟨op, List.mem_cons_self op rest, h''⟩
      · exact Or.inr h''

theorem nodupKeys_ss_foldl (ht : Nat) (ss : SS) (db0 : DB)
    (h : (db0.map Prod.fst).Nodup) :
    (((ss.foldl (fun d e => aPut (subspaceKey ht e.1.1 e.1.2) e.2 d) db0).map
      Prod.fst)).Nodup := by
  induction ss generalizing db0 with
  | nil => exact h
  | cons e rest ih =>
    rw [List.foldl_cons]
    exact ih _ (nodupKeys_aPut _ _ h)

theorem nodupKeys_applyOp (db : DB) (op : Op) (h : (db.map Prod.fst).Nodup) :
    ((applyOp db op).map Prod.fst).Nodup := by
  cases op with
  | writeBlock t hsh ht ss =>
    simp only [applyOp, write_block]
    exact nodupKeys_aPut _ _
      (nodupKeys_ss_foldl ht ss _
        (nodupKeys_aPut _ _ (nodupKeys_aPut _ _ (nodupKeys_aPut _ _ h))))
  | writeChainId cid =>
    simp only [applyOp, write_chain_id]
    exact nodupKeys_aPut _ _ h

theorem nodupKeys_applyOps (ops : List Op) :
    ∀ db : DB, (db.map Prod.fst).Nodup → ((applyOps db ops).map Prod.fst).Nodup := by
  induction ops with
  | nil => intro db h; exact h
  | cons op rest ih =>
    intro db h
    exact ih _ (nodupKeys_applyOp db op h)

theorem ssGetK_rootKey (ht ht' : Nat) (ss : SS) :
    ssGetK ht ss (treeRootKey ht') = none := by
  simp only [ssGetK]
  rw [List.find?_eq_none.mpr]
  · rfl
  · intro e _
    simp only [decide_eq_true_eq]
    exact fun h => treeRootKey_ne_subspaceKey ht' ht e.1.1 e.1.2 h.symm

theorem ssGetK_storeKey (ht ht' : Nat) (ss : SS) :
    ssGetK ht ss (treeStoreKey ht') = none := by
  simp only [ssGetK]
  rw [List.find?_eq_none.mpr]
  · rfl
  · intro e _
    simp only [decide_eq_true_eq]
    exact fun h => treeStoreKey_ne_subspaceKey ht' ht e.1.1 e.1.2 h.symm

theorem ssGetK_hashKey (ht ht' : Nat) (ss : SS) :
    ssGetK ht ss (blockHashKey ht') = none := by
  simp only [ssGetK]
  rw [List.find?_eq_none.mpr]
  · rfl
  · intro e _
    simp only [decide_eq_true_eq]
    exact fun h => blockHashKey_ne_subspaceKey ht' ht e.1.1 e.1.2 h.symm

theorem ssGetK_chainId (ht : Nat) (ss : SS) : ssGetK ht ss chainIdKey = none := by
  simp only [ssGetK]
  rw [List.find?_eq_none.mpr]
  · rfl
  · intro e _
    simp only [decide_eq_true_eq]
    exact subspaceKey_ne_chainId ht e.1.1 e.1.2

theorem batchGet_rootKey (t : MerkleTree) (hsh : Bytes) (ht : Nat) (ss : SS) :
    batchGet t hsh ht ss (treeRootKey ht) = some t.root := by
  simp only [batchGet, ssGetK_rootKey]
  rw [if_neg (treeRootKey_ne_blockHashKey ht ht),
    if_neg fun h => treeRootKey_ne_treeStoreKey ht ht h]
  simp

theorem batchGet_storeKey (t : MerkleTree) (hsh : Bytes) (ht : Nat) (ss : SS) :
    batchGet t hsh ht ss (treeStoreKey ht) = some t.store := by
  simp only [batchGet, ssGetK_storeKey]
  rw [if_neg (treeStoreKey_ne_blockHashKey ht ht)]
  simp

theorem batchGet_hashKey (t : MerkleTree) (hsh : Bytes) (ht : Nat) (ss : SS) :
    batchGet t hsh ht ss (blockHashKey ht) = some hsh := by
  simp only [batchGet, ssGetK_hashKey]
  simp

theorem batchGet_chainId (t : MerkleTree) (hsh : Bytes) (ht : Nat) (ss : SS) :
    batchGet t hsh ht ss chainIdKey = none := by
  simp only [batchGet, ssGetK_chainId]
  rw [if_neg fun h => blockHashKey_ne_chainId ht h.symm,
    if_neg fun h => treeStoreKey_ne_chainId ht h.symm,
    if_neg fun h => treeRootKey_ne_chainId ht h.symm]
  rfl

theorem opsGet_chainId_isSome (ops : List Op) (h : hasChainIdOp ops = true) :
    (opsGet ops chainIdKey).isSome = true := by
  induction ops with
  | nil => exact absurd h (by simp [hasChainIdOp])
  | cons op rest ih =>
    simp only [opsGet]
    cases hr : opsGet rest chainIdKey with
    | some v => rfl
    | none =>
      simp only [hasChainIdOp, Bool.or_eq_true] at h
      rcases h with h | h
      · have hs := ih h
        rw [hr] at hs
        simp at hs
      · cases op with
        | writeBlock t hsh ht ss => cases h
        | writeChainId cid =>
          simp only [Option.orElse, opGet, if_pos rfl]
          rfl

theorem opsGet_heightPtr_none (ops : List Op) (h : lastBlockHeight ops = none) :
    opsGet ops heightPtrKey = none := by
  induction ops with
  | nil => rfl
  | cons op rest ih =>
    simp only [lastBlockHeight] at h
    cases hr : lastBlockHeight rest with
    | some H' => rw [hr] at h; cases h
    | none =>
      rw [hr] at h
      simp only [opsGet, ih hr]
      cases op with
      | writeBlock t hsh ht ss => simp only [Option.orElse] at h; cases h
      | writeChainId cid =>
        simp only [Option.orElse, opGet]
        rw [if_neg (by decide)]

theorem opsGet_heightPtr (ops : List Op) (H : Nat)
    (h : lastBlockHeight ops = some H) :
    opsGet ops heightPtrKey = some (heightEncode H) := by
  induction ops with
  | nil => cases h
  | cons op rest ih =>
    simp only [lastBlockHeight] at h
    simp only [opsGet]
    cases hr : lastBlockHeight rest with
    | some H' =>
      rw [hr] at h
      simp only [Option.orElse, Option.some.injEq] at h
      rw [ih (by rw [hr, h])]
      rfl
    | none =>
      rw [hr] at h
      rw [opsGet_heightPtr_none rest hr]
      cases op with
      | writeBlock t hsh ht ss =>
        simp only [Option.orElse, Option.some.injEq] at h
        subst h
        simp [opGet]
      | writeChainId cid => simp only [Option.orElse] at h; cases h

theorem opsGet_height_keys_none (ops : List Op) (h : lastBlockHeight ops = none)
    (H : Nat) :
    opsGet ops (treeRootKey H) = none ∧ opsGet ops (treeStoreKey H) = none
      ∧ opsGet ops (blockHashKey H) = none
      ∧ ∀ a c, opsGet ops (subspaceKey H a c) = none := by
  induction ops with
  | nil => exact ⟨rfl, rfl, rfl, fun a c => rfl⟩
  | cons op rest ih =>
    simp only [lastBlockHeight] at h
    cases hr : lastBlockHeight rest with
    | some H' => rw [hr] at h; cases h
    | none =>
      rw [hr] at h
      obtain ⟨h1, h2, h3, h4⟩ := ih hr
      cases op with
      | writeBlock t hsh ht ss => simp only [Option.orElse] at h; cases h
      | writeChainId cid =>
        simp only [opsGet, h1, h2, h3, opGet]
        refine ⟨?_, ?_, ?_, ?_⟩
        · simp only [Option.orElse]
          rw [if_neg (treeRootKey_ne_chainId H)]
        · simp only [Option.orElse]
          rw [if_neg (treeStoreKey_ne_chainId H)]
        · simp only [Option.orElse]
          rw [if_neg (blockHashKey_ne_chainId H)]
        · intro a c
          simp only [opsGet, h4, Option.orElse]
          rw [if_neg (subspaceKey_ne_chainId H a c)]

theorem opsGet_essential (ops : List Op) (H : Nat)
    (h : lastBlockHeight ops = some H) :
    ∃ t : MerkleTree, ∃ hsh : Bytes,
      opsGet ops (treeRootKey H) = some t.root
      ∧ opsGet ops (treeStoreKey H) = some t.store
      ∧ opsGet ops (blockHashKey H) = some hsh := by
  induction ops with
  | nil => cases h
  | cons op rest ih =>
    simp only [lastBlockHeight] at h
    cases hr : lastBlockHeight rest with
    | some H' =>
      rw [hr] at h
      simp only [Option.orElse, Option.some.injEq] at h
      obtain ⟨t, hsh, e1, e2, e3⟩ := ih (by rw [hr, h])
      refine ⟨t, hsh, ?_, ?_, ?_⟩ <;> simp only [opsGet, e1, e2, e3] <;> rfl
    | none =>
      rw [hr] at h
      obtain ⟨h1, h2, h3, -⟩ := opsGet_height_keys_none rest hr H
      cases op with
      | writeChainId cid => simp only [Option.orElse] at h; cases h
      | writeBlock t hsh ht ss =>
        simp only [Option.orElse, Option.some.injEq] at h
        subst h
        refine ⟨t, hsh, ?_, ?_, ?_⟩ <;> simp only [opsGet, h1, h2, h3, opGet]
        · simp only [Option.orElse]
          rw [if_neg (treeRootKey_ne_heightPtr ht), batchGet_rootKey]
        · simp only [Option.orElse]
          rw [if_neg (treeStoreKey_ne_heightPtr ht), batchGet_storeKey]
        · simp only [Option.orElse]
          rw [if_neg (blockHashKey_ne_heightPtr ht), batchGet_hashKey]

theorem opsGet_subspaceKey (ops : List Op) (H a : Nat) (c : List Char) :
    opsGet ops (subspaceKey H a c) = subspaceWritesAt ops H a c := by
  induction ops with
  | nil => rfl
  | cons op rest ih =>
    simp only [opsGet, subspaceWritesAt, ih]
    cases hr : subspaceWritesAt rest H a c with
    | some v => rfl
    | none =>
      simp only [Option.orElse]
      cases op with
      | writeChainId cid =>
        rw [opGet, if_neg (subspaceKey_ne_chainId H a c)]
      | writeBlock t hsh ht ss =>
        rw [opGet, if_neg (subspaceKey_ne_heightPtr H a c)]
        simp only [batchGet, ssGetK]
        by_cases hht : ht = H
        · subst hht
          rw [if_pos rfl]
          rw [find?_congr (fun e _ => ?_)]
          · cases ss.reverse.find? fun e => decide (e.1 = (a, c)) with
            | some p => rfl
            | none =>
              simp only [Option.orElse, Option.map]
              rw [if_neg fun hx => blockHashKey_ne_subspaceKey ht ht a c hx.symm,
                if_neg fun hx => treeStoreKey_ne_subspaceKey ht ht a c hx.symm,
                if_neg fun hx => treeRootKey_ne_subspaceKey ht ht a c hx.symm]
          · show decide (subspaceKey ht e.1.1 e.1.2 = subspaceKey ht a c)
              = decide (e.1 = (a, c))
            by_cases he : e.1 = (a, c)
            · rw [decide_eq_true he]
              rw [decide_eq_true]
              rw [show e.1.1 = a by rw [he], show e.1.2 = c by rw [he]]
            · rw [decide_eq_false he, decide_eq_false]
              intro hx
              obtain ⟨-, ha, hc⟩ := subspaceKey_inj hx
              exact he (Prod.ext ha hc)
        · rw [if_neg hht]
          rw [List.find?_eq_none.mpr fun e _ => ?_]
          · simp only [Option.map]
            simp only [Option.orElse]
            rw [if_neg fun hx => blockHashKey_ne_subspaceKey ht H a c hx.symm,
              if_neg fun hx => treeStoreKey_ne_subspaceKey ht H a c hx.symm,
              if_neg fun hx => treeRootKey_ne_subspaceKey ht H a c hx.symm]
          · simp only [decide_eq_true_eq]
            intro hx
            exact hht (subspaceKey_inj hx).1

theorem addrFromSeg_natSeg (a : Nat) : addrFromSeg (natSeg a) = some a := by
  simp only [addrFromSeg]
  rw [if_pos]
  · rw [digitsVal_natSeg]
  · simp only [Bool.and_eq_true, ne_eq, decide_eq_true_eq]
    exact ⟨by simpa using natSeg_ne_nil a, List.all_eq_true.mpr (natSeg_all_digits a)⟩

theorem scanEntry_rootKey (st : ScanState) (H : Nat) (v : Bytes) :
    scanEntry st (treeRootKey H, v) = .ok { st with root := some v } := by
  simp only [scanEntry]
  rw [splitCh_treeRootKey]
  rfl

theorem scanEntry_storeKey (st : ScanState) (H : Nat) (v : Bytes) :
    scanEntry st (treeStoreKey H, v) = .ok { st with store := some v } := by
  simp only [scanEntry]
  rw [splitCh_treeStoreKey]
  rfl

theorem scanEntry_hashKey (st : ScanState) (H : Nat) (v : Bytes) :
    scanEntry st (blockHashKey H, v) = .ok { st with hash := some v } := by
  simp only [scanEntry]
  rw [splitCh_blockHashKey]
  rfl

theorem scanEntry_ssKey (st : ScanState) (H a : Nat) (c : List Char) (v : Bytes) :
    scanEntry st (subspaceKey H a c, v)
      = .ok { st with subspaces := aPut (a, c) v st.subspaces } := by
  simp only [scanEntry]
  rw [splitCh_subspaceKey]
  simp only [List.get?]
  rw [if_pos trivial, addrFromSeg_natSeg]
  simp only [List.drop]
  rw [joinCh_splitCh]
  simp

theorem aGet_cons_self [DecidableEq κ] (k : κ) (v : ν) (rest : List (κ × ν)) :
    aGet ((k, v) :: rest) k = some v := by
  simp [aGet, List.find?_cons_of_pos]

theorem aGet_cons_ne [DecidableEq κ] {k k' : κ} (v : ν) (rest : List (κ × ν))
    (h : ¬k' = k) : aGet ((k', v) :: rest) k = aGet rest k := by
  simp only [aGet]
  rw [List.find?_cons_of_neg _ (by simp [h])]

theorem aGet_eq_none_of_not_mem_keys [DecidableEq κ] {m : List (κ × ν)} {k : κ}
    (h : k ∉ m.map Prod.fst) : aGet m k = none := by
  rw [aGet_eq_none_iff]
  intro v hv
  exact h (List.mem_map.mpr ⟨(k, v), hv, rfl⟩)

theorem runScan_canonical (H : Nat) :
    ∀ (L : List (StoreKey × Bytes)) (st0 : ScanState),
      (∀ e ∈ L, canonEntry H e.1) → ((L.map Prod.fst).Nodup) →
      ∃ st, runScan st0 L = .ok st
        ∧ st.root = Option.orElse (aGet L (treeRootKey H)) (fun _ => st0.root)
        ∧ st.store = Option.orElse (aGet L (treeStoreKey H)) (fun _ => st0.store)
        ∧ st.hash = Option.orElse (aGet L (blockHashKey H)) (fun _ => st0.hash)
        ∧ ∀ a c, aGet st.subspaces (a, c)
            = Option.orElse (aGet L (subspaceKey H a c))
                (fun _ => aGet st0.subspaces (a, c)) := by
  intro L
  induction L with
  | nil =>
    intro st0 _ _
    exact ⟨st0, rfl, rfl, rfl, rfl, fun a c => rfl⟩
  | cons e rest ih =>
    intro st0 hcanon hnd
    obtain ⟨k, v⟩ := e
    simp only [List.map_cons, List.nodup_cons] at hnd
    have hkeyrest : aGet rest k = none := aGet_eq_none_of_not_mem_keys hnd.1
    have hcr : ∀ e ∈ rest, canonEntry H e.1 :=
      fun e he => hcanon e (List.mem_cons_of_mem _ he)
    rcases hcanon (k, v) (List.mem_cons_self _ rest) with hk | hk | hk | hk
    · subst hk
      obtain ⟨st, hst, e1, e2, e3, e4⟩ := ih { st0 with root := some v } hcr hnd.2
      refine ⟨st, ?_, ?_, ?_, ?_, ?_⟩
      · simp only [runScan, scanEntry_rootKey]
        exact hst
      · rw [e1, aGet_cons_self]
        rw [show aGet rest (treeRootKey H) = none from hkeyrest]
        rfl
      · rw [e2, aGet_cons_ne v rest (treeRootKey_ne_treeStoreKey H H)]
      · rw [e3, aGet_cons_ne v rest (treeRootKey_ne_blockHashKey H H)]
      · intro a c
        rw [e4 a c, aGet_cons_ne v rest (treeRootKey_ne_subspaceKey H H a c)]
    · subst hk
      obtain ⟨st, hst, e1, e2, e3, e4⟩ := ih { st0 with store := some v } hcr hnd.2
      refine ⟨st, ?_, ?_, ?_, ?_, ?_⟩
      · simp only [runScan, scanEntry_storeKey]
        exact hst
      · rw [e1, aGet_cons_ne v rest fun h => treeRootKey_ne_treeStoreKey H H h.symm]
      · rw [e2, aGet_cons_self]
        rw [show aGet rest (treeStoreKey H) = none from hkeyrest]
        rfl
      · rw [e3, aGet_cons_ne v rest (treeStoreKey_ne_blockHashKey H H)]
      · intro a c
        rw [e4 a c, aGet_cons_ne v rest (treeStoreKey_ne_subspaceKey H H a c)]
    · subst hk
      obtain ⟨st, hst, e1, e2, e3, e4⟩ := ih { st0 with hash := some v } hcr hnd.2
      refine ⟨st, ?_, ?_, ?_, ?_, ?_⟩
      · simp only [runScan, scanEntry_hashKey]
        exact hst
      · rw [e1, aGet_cons_ne v rest fun h => treeRootKey_ne_blockHashKey H H h.symm]
      · rw [e2, aGet_cons_ne v rest fun h => treeStoreKey_ne_blockHashKey H H h.symm]
      · rw [e3, aGet_cons_self]
        rw [show aGet rest (blockHashKey H) = none from hkeyrest]
        rfl
      · intro a c
        rw [e4 a c, aGet_cons_ne v rest (blockHashKey_ne_subspaceKey H H a c)]
    · obtain ⟨a0, c0, hk⟩ := hk
      subst hk
      obtain ⟨st, hst, e1, e2, e3, e4⟩ :=
        ih { st0 with subspaces := aPut (a0, c0) v st0.subspaces } hcr hnd.2
      refine ⟨st, ?_, ?_, ?_, ?_, ?_⟩
      · simp only [runScan, scanEntry_ssKey]
        exact hst
      · rw [e1, aGet_cons_ne v rest fun h => treeRootKey_ne_subspaceKey H H a0 c0 h.symm]
      · rw [e2, aGet_cons_ne v rest fun h => treeStoreKey_ne_subspaceKey H H a0 c0 h.symm]
      · rw [e3, aGet_cons_ne v rest fun h => blockHashKey_ne_subspaceKey H H a0 c0 h.symm]
      · intro a c
        rw [e4 a c]
        by_cases hac : (a, c) = (a0, c0)
        · have ha : a = a0 := congrArg Prod.fst hac
          have hc : c = c0 := congrArg Prod.snd hac
          subst ha
          subst hc
          rw [aGet_cons_self, hkeyrest, aGet_aPut, if_pos rfl]
          rfl
        · have hkne : ¬subspaceKey H a0 c0 = subspaceKey H a c := fun h => by
            obtain ⟨-, ha, hc⟩ := subspaceKey_inj h
            exact hac (by rw [ha, hc])
          rw [aGet_cons_ne v rest hkne]
          rw [aGet_aPut]
          rw [if_neg hac]

theorem lastBlockHeight_mem {ops : List Op} {H : Nat}
    (h : lastBlockHeight ops = some H) :
    ∃ t hsh ss, Op.writeBlock t hsh H ss ∈ ops := by
  induction ops with
  | nil => cases h
  | cons op rest ih =>
    simp only [lastBlockHeight] at h
    cases hr : lastBlockHeight rest with
    | some H' =>
      rw [hr] at h
      simp only [Option.orElse, Option.some.injEq] at h
      obtain ⟨t, hsh, ss, hm⟩ := ih (by rw [hr, h])
      exact ⟨t, hsh, ss, List.mem_cons_of_mem op hm⟩
    | none =>
      rw [hr] at h
      cases op with
      | writeBlock t hsh ht ss =>
        simp only [Option.orElse, Option.some.injEq] at h
        exact ⟨t, hsh, ss, by rw [← h]; exact List.mem_cons_self _ rest⟩
      | writeChainId cid => simp only [Option.orElse] at h; cases h

theorem opsHeightsOK_mem {ops : List Op} (h : opsHeightsOK ops = true)
    {t : MerkleTree} {hsh : Bytes} {ht : Nat} {ss : SS}
    (hm : Op.writeBlock t hsh ht ss ∈ ops) : ht + 1 < 2 ^ 64 := by
  induction ops with
  | nil => cases hm
  | cons op rest ih =>
    cases op with
    | writeBlock t' hsh' ht' ss' =>
      simp only [opsHeightsOK, Bool.and_eq_true, decide_eq_true_eq] at h
      rcases List.mem_cons.mp hm with he | hm'
      · cases he
        exact h.1
      · exact ih h.2 hm'
    | writeChainId cid =>
      simp only [opsHeightsOK] at h
      rcases List.mem_cons.mp hm with he | hm'
      · cases he
      · exact ih h hm'

theorem aGet_applyOps_nil (ops : List Op) (k : StoreKey) :
    aGet (applyOps [] ops) k = opsGet ops k := by
  rw [aGet_applyOps]
  cases opsGet ops k <;> rfl

theorem scanRange_canonical (ops : List Op) (H : Nat)
    (hOK : opsHeightsOK ops = true) (hH1 : H + 1 < 2 ^ 64) :
    ∀ e ∈ scanRange (applyOps [] ops) (natSeg H ++ ['/']) (natSeg (H + 1) ++ ['/']),
      canonEntry H e.1 := by
  intro e he
  obtain ⟨hmem, hrange⟩ := mem_scanRange he
  rcases mem_applyOps hmem with ⟨op, hop, hk⟩ | habs
  · cases op with
    | writeChainId cid =>
      rw [show e.1 = chainIdKey from hk] at hrange
      rw [inScanRange_chainId_false H] at hrange
      cases hrange
    | writeBlock t hsh ht ss =>
      have hbound : ht + 1 < 2 ^ 64 := opsHeightsOK_mem hOK hop
      rcases hk with hk | hk | hk | hk | hk
      · rw [hk] at hrange
        rw [inScanRange_heightPtr_false H] at hrange
        cases hrange
      · by_cases hht : ht = H
        · exact Or.inl (by rw [hk, hht])
        · rw [hk] at hrange
          simp only [treeRootKey] at hrange
          rw [inScanRange_canonical_false H ht hH1 (by omega) hht "tree/root".data
            't' "ree".data ["root".data] (by decide)] at hrange
          cases hrange
      · by_cases hht : ht = H
        · exact Or.inr (Or.inl (by rw [hk, hht]))
        · rw [hk] at hrange
          simp only [treeStoreKey] at hrange
          rw [inScanRange_canonical_false H ht hH1 (by omega) hht "tree/store".data
            't' "ree".data ["store".data] (by decide)] at hrange
          cases hrange
      · by_cases hht : ht = H
        · exact Or.inr (Or.inr (Or.inl (by rw [hk, hht])))
        · rw [hk] at hrange
          simp only [blockHashKey] at hrange
          rw [inScanRange_canonical_false H ht hH1 (by omega) hht "hash".data
            'h' "ash".data [] (by decide)] at hrange
          cases hrange
      · obtain ⟨a, c, hk⟩ := hk
        by_cases hht : ht = H
        · exact Or.inr (Or.inr (Or.inr ⟨a, c, by rw [hk, hht]⟩))
        · rw [hk] at hrange
          simp only [subspaceKey] at hrange
          rw [inScanRange_canonical_false H ht hH1 (by omega) hht
            ("subspace".data ++ '/' :: (natSeg a ++ '/' :: c))
            's' "ubspace".data (splitCh (natSeg a ++ '/' :: c))
            (splitCh_append "subspace".data _ (by decide))] at hrange
          cases hrange
  · cases habs

/-- C3: after any sequence of (successful) `write_block`/`write_chain_id`
calls that contains at least one `write_chain_id` and whose last
`write_block` committed height `H`, `read_last_block` returns `some` of a
tuple whose Merkle tree is built from the last root and store written for
`H`, whose block hash is the last hash written for `H`, whose height is
`H`, and whose subspace mapping holds exactly the union of the subspace
entries passed to `write_block` at height `H` (later writes winning),
with no entry from any other height. -/
theorem read_last_block_roundtrip (ops : List Op) (H : Nat)
    (hOK : opsHeightsOK ops = true)
    (hcid : hasChainIdOp ops = true)
    (hlast : lastBlockHeight ops = some H) :
    ∃ cid r s hsh ssr,
      read_last_block (applyOps [] ops) = .ok (some (cid, ⟨r, s⟩, hsh, H, ssr))
      ∧ opsGet ops (treeRootKey H) = some r
      ∧ opsGet ops (treeStoreKey H) = some s
      ∧ opsGet ops (blockHashKey H) = some hsh
      ∧ ∀ a c, aGet ssr (a, c) = subspaceWritesAt ops H a c := by
  obtain ⟨t0, hsh0, ss0, hmem0⟩ := lastBlockHeight_mem hlast
  have hH1 : H + 1 < 2 ^ 64 := opsHeightsOK_mem hOK hmem0
  have hnd : ((applyOps [] ops).map Prod.fst).Nodup :=
    nodupKeys_applyOps ops [] (by simp)
  obtain ⟨cb, hcb⟩ : ∃ cb, aGet (applyOps [] ops) chainIdKey = some cb := by
    cases hc : opsGet ops chainIdKey with
    | none =>
      have := opsGet_chainId_isSome ops hcid
      rw [hc] at this
      cases this
    | some cb =>
      refine ⟨cb, ?_⟩
      rw [aGet_applyOps_nil, hc]
  have hptr : aGet (applyOps [] ops) heightPtrKey = some (heightEncode H) := by
    rw [aGet_applyOps_nil]
    exact opsGet_heightPtr ops H hlast
  have hdec : heightDecode (heightEncode H) = H := by
    apply leVal_leBytes
    have : (256 : Nat) ^ 8 = 2 ^ 64 := by norm_num
    omega
  have hcanon := scanRange_canonical ops H hOK hH1
  have hndE := nodupKeys_scanRange (applyOps [] ops)
    (natSeg H ++ ['/']) (natSeg (H + 1) ++ ['/']) hnd
  obtain ⟨st, hrun, e1, e2, e3, e4⟩ :=
    runScan_canonical H
      (scanRange (applyOps [] ops) (natSeg H ++ ['/']) (natSeg (H + 1) ++ ['/']))
      ⟨none, none, none, []⟩ hcanon hndE
  have hgetRoot : aGet (scanRange (applyOps [] ops)
      (natSeg H ++ ['/']) (natSeg (H + 1) ++ ['/'])) (treeRootKey H)
      = aGet (applyOps [] ops) (treeRootKey H) := by
    rw [scanRange_aGet _ _ _ _ hnd, if_pos ?_]
    simp only [treeRootKey]
    exact inScanRange_canonical_true H hH1 "tree/root".data 't' "ree".data
      ["root".data] (by decide)
  have hgetStore : aGet (scanRange (applyOps [] ops)
      (natSeg H ++ ['/']) (natSeg (H + 1) ++ ['/'])) (treeStoreKey H)
      = aGet (applyOps [] ops) (treeStoreKey H) := by
    rw [scanRange_aGet _ _ _ _ hnd, if_pos ?_]
    simp only [treeStoreKey]
    exact inScanRange_canonical_true H hH1 "tree/store".data 't' "ree".data
      ["store".data] (by decide)
  have hgetHash : aGet (scanRange (applyOps [] ops)
      (natSeg H ++ ['/']) (natSeg (H + 1) ++ ['/'])) (blockHashKey H)
      = aGet (applyOps [] ops) (blockHashKey H) := by
    rw [scanRange_aGet _ _ _ _ hnd, if_pos ?_]
    simp only [blockHashKey]
    exact inScanRange_canonical_true H hH1 "hash".data 'h' "ash".data []
      (by decide)
  have hgetSS : ∀ a c, aGet (scanRange (applyOps [] ops)
      (natSeg H ++ ['/']) (natSeg (H + 1) ++ ['/'])) (subspaceKey H a c)
      = aGet (applyOps [] ops) (subspaceKey H a c) := by
    intro a c
    rw [scanRange_aGet _ _ _ _ hnd, if_pos ?_]
    simp only [subspaceKey]
    exact inScanRange_canonical_true H hH1
      ("subspace".data ++ '/' :: (natSeg a ++ '/' :: c)) 's' "ubspace".data
      (splitCh (natSeg a ++ '/' :: c))
      (splitCh_append "subspace".data _ (by decide))
  obtain ⟨t1, hsh1, er, es, eh⟩ := opsGet_essential ops H hlast
  have hroot : st.root = some t1.root := by
    rw [e1, hgetRoot, aGet_applyOps_nil, er]
    rfl
  have hstore : st.store = some t1.store := by
    rw [e2, hgetStore, aGet_applyOps_nil, es]
    rfl
  have hhash : st.hash = some hsh1 := by
    rw [e3, hgetHash, aGet_applyOps_nil, eh]
    rfl
  refine ⟨strDecode cb, t1.root, t1.store, hsh1, st.subspaces, ?_, er, es, eh, ?_⟩
  · simp only [read_last_block, hcb, hptr, hdec, hrun, hroot, hstore, hhash]
  · intro a c
    rw [e4 a c, hgetSS a c, aGet_applyOps_nil, opsGet_subspaceKey]
    cases subspaceWritesAt ops H a c <;> rfl

/-- Witness for C3 on `opsW` (last committed height 2). -/
theorem read_last_block_roundtrip_witness :
    ∃ cid r s hsh ssr,
      read_last_block (applyOps [] opsW) = .ok (some (cid, ⟨r, s⟩, hsh, 2, ssr))
      ∧ opsGet opsW (treeRootKey 2) = some r
      ∧ opsGet opsW (treeStoreKey 2) = some s
      ∧ opsGet opsW (blockHashKey 2) = some hsh
      ∧ ∀ a c, aGet ssr (a, c) = subspaceWritesAt opsW 2 a c :=
  read_last_block_roundtrip opsW 2 (by decide) (by decide) (by decide)

/-- C9: on the IBC channel counter key, `validate_channel` returns
`Ok(true)` exactly when the pre-state counter is strictly below the
post-state counter; the result is a function of the two counter reads
alone, so no other validation step can influence it. -/
theorem validate_channel_counter (ctx : IbcCtx) (key : List String)
    (tx : Bytes) (pre : Nat)
    (hkey : is_ibc_channel_counter key = true)
    (hpre : ctx.readCounterPre ibcChannelCounterKey = .ok pre) :
    (validate_channel ctx key tx = .ok true ↔ pre < channel_counter ctx)
    ∧ validate_channel ctx key tx = .ok (decide (pre < channel_counter ctx))
    ∧ ∀ ctx' : IbcCtx,
        ctx'.readCounterPre ibcChannelCounterKey
            = ctx.readCounterPre ibcChannelCounterKey →
        ctx'.readCounter ibcChannelCounterKey
            = ctx.readCounter ibcChannelCounterKey →
        validate_channel ctx' key tx = validate_channel ctx key tx := by
  have hres : validate_channel ctx key tx
      = .ok (decide (pre < channel_counter ctx)) := by
    simp only [validate_channel, hkey, if_true, channel_counter_pre, hpre]
    rfl
  refine ⟨?_, hres, ?_⟩
  · rw [hres]
    constructor
    · intro h
      have : decide (pre < channel_counter ctx) = true := by
        cases hd : decide (pre < channel_counter ctx)
        · rw [hd] at h
          cases h
        · rfl
      exact of_decide_eq_true this
    · intro h
      rw [decide_eq_true h]
  · intro ctx' h1 h2
    have hres' : validate_channel ctx' key tx
        = .ok (decide (pre < channel_counter ctx')) := by
      simp only [validate_channel, hkey, if_true, channel_counter_pre, h1, hpre]
      rfl
    rw [hres, hres']
    simp only [channel_counter, h2]

/-- Witness for C9 on the counter key with counters 0 (pre) and 1 (post). -/
theorem validate_channel_counter_witness :
    is_ibc_channel_counter ["#IBC", "channelCounter"] = true
    ∧ ctxCounter.readCounterPre ibcChannelCounterKey = .ok 0
    ∧ (validate_channel ctxCounter ["#IBC", "channelCounter"] [] = .ok true
        ↔ 0 < channel_counter ctxCounter) :=
  ⟨by decide, rfl,
    (validate_channel_counter ctxCounter ["#IBC", "channelCounter"] [] 0
      (by decide) rfl).1⟩

/-- C10: `channel_end` collapses storage absence, storage read failure and
decode failure into `none`, and `validate_channel` therefore reports the
same "The channel doesn\x27t exist" error for an engine read failure as for
a genuinely absent channel. -/
theorem channel_end_failure_modes (ctx : IbcCtx) (p c : String)
    (key : List String) (tx : Bytes) :
    (ctx.readPost (channelEndsKey p c) = .ok none →
      channel_end ctx (p, c) = none)
    ∧ (∀ e, ctx.readPost (channelEndsKey p c) = .error e →
        channel_end ctx (p, c) = none)
    ∧ (∀ v e, ctx.readPost (channelEndsKey p c) = .ok (some v) →
        ctx.decodeChannelEnd v = .error e → channel_end ctx (p, c) = none)
    ∧ (is_ibc_channel_counter key = false → get_port_id key = .ok p →
        get_channel_id ctx key = .ok c →
        (∃ cap, authenticated_capability ctx p = .ok cap) →
        channel_end ctx (p, c) = none →
        validate_channel ctx key tx
          = .error (.chanErr ("The channel doesn\x27t exist: Port " ++ p
              ++ ", Channel " ++ c))) := by
  refine ⟨?_, ?_, ?_, ?_⟩
  · intro h
    simp only [channel_end, h]
  · intro e h
    simp only [channel_end, h]
  · intro v e h hd
    simp only [channel_end, h, hd]
    rfl
  · intro hkey hport hchan hauth hend
    obtain ⟨cap, hcap⟩ := hauth
    simp only [validate_channel, hkey, if_false, hport, hchan, hcap, hend,
      Bool.false_eq_true]

/-- Witness for C10: an engine read failure surfaces as the same
channel-does-not-exist error. -/
theorem channel_end_failure_modes_witness :
    channel_end ctxReadFail ("p0", "ch0") = none
    ∧ validate_channel ctxReadFail (channelEndsKey "p0" "ch0") []
        = .error (.chanErr ("The channel doesn\x27t exist: Port p0, Channel ch0")) :=
  ⟨(channel_end_failure_modes ctxReadFail "p0" "ch0"
      (channelEndsKey "p0" "ch0") []).2.1 "io error" rfl,
    (channel_end_failure_modes ctxReadFail "p0" "ch0"
      (channelEndsKey "p0" "ch0") []).2.2.2 (by decide) rfl rfl ⟨0, rfl⟩ rfl⟩
